import Mathlib

/-!
Verification of the group-membership lifecycle and assignment-consistency
core of the cracken backend (FastAPI + SQLAlchemy).

The relational store is embedded shallowly: each table is a list of rows in
insertion order, and each API handler in `app/api/v1/groups.py` and
`app/api/v1/tasks.py` is translated to a pure function on the whole database
state.  Machine-level details that the handlers rely on are made explicit:

* `group_members` has primary key `(group_id, user_id)`, `task_assignments`
  has primary key `(task_id, user_id)`: a duplicate insert is an integrity
  error that aborts the enclosing transaction;
* `db.commit()` boundaries matter: `create_group` commits the group row and
  the admin membership row in two separate transactions, so the state after
  the first commit is a real committed state, visible to concurrent
  requests and surviving a crash of the request that produced it;
* Python truthiness: `if not oldest` in `promote_oldest_member` and
  `if not target_membership` in `remove_member` treat the user id `0`
  like an absent row;
* SQL `ORDER BY joined_at ASC LIMIT 1` fixes only the `joined_at` order;
  the row returned among equal timestamps is unspecified.  The store is
  modelled as returning rows in insertion order, so the query yields the
  first-inserted row with the minimal `joined_at`.

Timestamps (`joined_at`, `created_at`, `assigned_at`, ...) are modelled as
naturals supplied by the caller (the value of `datetime.utcnow()`).
-/

namespace Cracken

/-- A row of the `group_members` association table
(`app/models/group.py`): columns `group_id`, `user_id`, `joined_at`,
`role` (the strings `"admin"` or `"member"` in practice). -/
structure Membership where
  groupId : Nat
  userId : Nat
  joinedAt : Nat
  role : String
deriving DecidableEq, Repr

/-- A row of the `groups` table (`app/models/group.py`): columns `id`,
`name`, `invite_code`, `created_at`, `created_by` (nullable). -/
structure Group where
  id : Nat
  name : String
  inviteCode : String
  createdAt : Nat
  createdBy : Option Nat
deriving DecidableEq, Repr

/-- A row of the `tasks` table (`app/models/task.py`). -/
structure Task where
  id : Nat
  name : String
  emoji : Option String
  category : Option String
  groupId : Nat
  createdAt : Nat
  isActive : Bool
deriving DecidableEq, Repr

/-- A row of the `task_assignments` association table
(`app/models/task.py`): primary key `(task_id, user_id)` plus
`assigned_at`. -/
structure Assignment where
  taskId : Nat
  userId : Nat
  assignedAt : Nat
deriving DecidableEq, Repr

/-- A row of the `completions` table (`app/models/completion.py`);
`group_id` is denormalized from the task at completion time. -/
structure Completion where
  id : Nat
  taskId : Nat
  userId : Nat
  groupId : Nat
  completedAt : Nat
deriving DecidableEq, Repr

/-- The whole relational state.  Each list holds the rows of one table in
insertion order. -/
structure DB where
  groups : List Group
  memberships : List Membership
  tasks : List Task
  assignments : List Assignment
  completions : List Completion
deriving DecidableEq, Repr

/-- The empty database. -/
def DB.empty : DB := ⟨[], [], [], [], []⟩

/-- Errors surfaced by the handlers (`HTTPException` payloads).
`invalidAssignees` carries the offending user ids of the 400 response
raised by task creation / assignment replacement; `integrityError` stands
for a constraint violation raised by the store at commit time, which
aborts the whole transaction. -/
inductive ApiError where
  | notFound : ApiError
  | forbidden : ApiError
  | alreadyMember : ApiError
  | invalidAssignees : List Nat → ApiError
  | integrityError : ApiError
  | codeExhausted : ApiError
deriving DecidableEq, Repr

/-- WHERE clause `group_members.c.group_id == group_id`. -/
def byGroup (gid : Nat) : Membership → Bool := fun m => m.groupId == gid

/-- WHERE clause selecting a single membership row by its primary key. -/
def byPair (gid uid : Nat) : Membership → Bool :=
  fun m => m.groupId == gid && m.userId == uid

/-- Predicate for the admin rows of a group. -/
def byAdmin (gid : Nat) : Membership → Bool :=
  fun m => m.groupId == gid && m.role == "admin"

/-- `get_member_count` (groups.py): `SELECT count(*) FROM group_members
WHERE group_id = :gid`. -/
def get_member_count (gid : Nat) (db : DB) : Nat :=
  (db.memberships.filter (byGroup gid)).length

/-- The membership rows of a group that hold `role = "admin"`. -/
def adminRows (gid : Nat) (db : DB) : List Membership :=
  db.memberships.filter (byAdmin gid)

/-- The succession query of `promote_oldest_member` (groups.py):
`SELECT user_id FROM group_members WHERE group_id = :gid AND user_id !=
:exclude ORDER BY joined_at ASC LIMIT 1`, modelled as the first-inserted
row attaining the minimal `joined_at` (SQL leaves the order among equal
timestamps unspecified; the store is modelled as returning rows in
insertion order). -/
def oldestRowExcluding (gid ex : Nat) (ms : List Membership) : Option Membership :=
  match ms.filter (fun m => m.groupId == gid && m.userId != ex) with
  | [] => none
  | r :: rs =>
      some (rs.foldl (fun best m => if m.joinedAt < best.joinedAt then m else best) r)

/-- The UPDATE of `promote_oldest_member`: set `role="admin"` on the row
keyed `(gid, u)`, leave every other row alone. -/
def promoteRole (gid u : Nat) : Membership → Membership :=
  fun m => if byPair gid u m then { m with role := "admin" } else m

/-- The `group.created_by = oldest` write of `promote_oldest_member`,
keyed on the group id. -/
def setCreator (gid u : Nat) : Group → Group :=
  fun g => if g.id == gid then { g with createdBy := some u } else g

/-- `promote_oldest_member` (groups.py): find the oldest member other than
`ex`; if none (Python `if not oldest`, which is also taken when the
selected user id is `0`), do nothing; otherwise set that member's role to
admin and point the group's `created_by` at them.  Returns the updated
state and the promoted user id. -/
def promote_oldest_member (gid ex : Nat) (db : DB) : DB × Option Nat :=
  match (oldestRowExcluding gid ex db.memberships).map (fun r => r.userId) with
  | none => (db, none)
  | some u =>
    if u == 0 then (db, none)
    else
      ({ db with memberships := db.memberships.map (promoteRole gid u),
                 groups := db.groups.map (setCreator gid u) }, some u)

/-- `verify_group_membership` (groups.py): 404 if the group is absent,
403 if the user holds no membership row, otherwise the group. -/
def verify_group_membership (gid uid : Nat) (db : DB) : Except ApiError Group :=
  match db.groups.find? (fun g => g.id == gid) with
  | none => .error .notFound
  | some g =>
    match db.memberships.find? (byPair gid uid) with
    | none => .error .forbidden
    | some _ => .ok g

/-- The role of a membership row, as read by the handlers
(`SELECT role FROM group_members WHERE group_id = :gid AND user_id = :uid`). -/
def getRole (gid uid : Nat) (db : DB) : Option String :=
  (db.memberships.find? (byPair gid uid)).map (fun m => m.role)

/-- Ids of the tasks owned by a group. -/
def groupTaskIds (gid : Nat) (db : DB) : List Nat :=
  (db.tasks.filter (fun t => t.groupId == gid)).map (fun t => t.id)

/-- Deleting a group row and everything that cascades from it:
`Group.tasks` carries `cascade="all, delete-orphan"`, `Task.completions`
likewise, `task_assignments.task_id` carries `ondelete='CASCADE'`, and the
alembic revision 708235923b8a adds `ON DELETE CASCADE` to
`group_members.group_id`.  So deleting the group removes its membership
rows, its tasks, and the assignment and completion rows of those tasks. -/
def deleteGroupCascade (gid : Nat) (db : DB) : DB :=
  let tids := groupTaskIds gid db
  { groups := db.groups.filter (fun g => g.id != gid)
    memberships := db.memberships.filter (fun m => m.groupId != gid)
    tasks := db.tasks.filter (fun t => t.groupId != gid)
    assignments := db.assignments.filter (fun a => !(tids.contains a.taskId))
    completions := db.completions.filter (fun c => !(tids.contains c.taskId)) }

/-- Removing one membership row: the DELETE statement shared by
`leave_group` and `remove_member`. -/
def removeMembershipRow (gid uid : Nat) (db : DB) : DB :=
  { db with memberships := db.memberships.filter (fun m => !(byPair gid uid m)) }

/-- `leave_group` (groups.py).  Verify membership; if the leaver is the
last member, delete the whole group; otherwise promote the oldest
remaining member when the leaver is the admin, and delete the leaver's
membership row.  All of this happens before the single `db.commit()`, so
the returned state is the one committed transaction. -/
def leave_group (gid uid : Nat) (db : DB) : Except ApiError DB :=
  match verify_group_membership gid uid db with
  | .error e => .error e
  | .ok _g =>
    if get_member_count gid db == 1 then
      .ok (deleteGroupCascade gid db)
    else
      let db1 := if getRole gid uid db == some "admin"
                 then (promote_oldest_member gid uid db).1 else db
      .ok (removeMembershipRow gid uid db1)

/-- `remove_member` (groups.py).  Admin-only removal of a member; an admin
removing themselves reuses the leave logic (group deletion when they are
the last member, succession otherwise).  Python's `if not
target_membership` check on the selected user id also fires on id `0`. -/
def remove_member (gid targetUid uid : Nat) (db : DB) : Except ApiError DB :=
  match verify_group_membership gid uid db with
  | .error e => .error e
  | .ok _g =>
    if getRole gid uid db != some "admin" then .error .forbidden
    else
      match db.memberships.find? (byPair gid targetUid) with
      | none => .error .notFound
      | some tm =>
        if tm.userId == 0 then .error .notFound
        else if targetUid == uid then
          if get_member_count gid db == 1 then
            .ok (deleteGroupCascade gid db)
          else
            .ok (removeMembershipRow gid targetUid (promote_oldest_member gid uid db).1)
        else
          .ok (removeMembershipRow gid targetUid db)

/-- Whether an invite code is already taken
(`db.query(Group).filter(Group.invite_code == invite_code).first()`). -/
def codeExists (c : String) (db : DB) : Bool :=
  db.groups.any (fun g => g.inviteCode == c)

/-- The retry loop of `create_group`: `for attempt in range(5)`, generate a
candidate, stop at the first fresh one, fail after the fifth collision.
`gen i` is the value returned by `generate_invite_code()` on attempt `i`. -/
def pickInviteCode (gen : Nat → String) (db : DB) : Option String :=
  ((List.range 5).find? (fun i => !(codeExists (gen i) db))).map gen

/-- The id the store assigns to a freshly inserted group row
(autoincrement primary key: larger than every existing id). -/
def freshGroupId (db : DB) : Nat :=
  (db.groups.map (fun g => g.id)).foldr max 0 + 1

/-- The id the store assigns to a freshly inserted task row. -/
def freshTaskId (db : DB) : Nat :=
  (db.tasks.map (fun t => t.id)).foldr max 0 + 1

/-- `create_group` (groups.py).  The handler commits twice: once after
inserting the group row, and once after inserting the creator's admin
membership row.  On success the result is the pair of the two committed
states, in order; both are real committed states of the store. -/
def create_group (uid : Nat) (name : String) (gen : Nat → String) (now : Nat)
    (db : DB) : Except ApiError (DB × DB) :=
  match pickInviteCode gen db with
  | none => .error .codeExhausted
  | some code =>
    let gid := freshGroupId db
    let g : Group :=
      { id := gid, name := name, inviteCode := code, createdAt := now,
        createdBy := some uid }
    let s1 := { db with groups := db.groups ++ [g] }
    let s2 := { s1 with memberships := s1.memberships ++
      [{ groupId := gid, userId := uid, joinedAt := now, role := "admin" }] }
    .ok (s1, s2)

/-- `join_group` (groups.py): look the group up by invite code, 400 if the
pair already exists, otherwise insert a `role="member"` row. -/
def join_group (code : String) (uid now : Nat) (db : DB) : Except ApiError DB :=
  match db.groups.find? (fun g => g.inviteCode == code) with
  | none => .error .notFound
  | some g =>
    match db.memberships.find? (byPair g.id uid) with
    | some _ => .error .alreadyMember
    | none =>
      .ok { db with memberships := db.memberships ++
        [{ groupId := g.id, userId := uid, joinedAt := now, role := "member" }] }

/-- The request body of task creation (`TaskCreate` in
`app/schemas/task.py`): `assigned_user_ids` is `None` when the field is
absent, `some l` (possibly empty) when supplied. -/
structure TaskCreate where
  name : String
  emoji : Option String
  category : Option String
  assignedUserIds : Option (List Nat)
deriving DecidableEq, Repr

/-- The request body of a partial task update (`TaskUpdate` in
`app/schemas/task.py`) read with `model_dump(exclude_unset=True)`: the
outer `Option` records whether the field was present in the request at
all, the inner one the supplied value (JSON `null` is allowed by the
schema). -/
structure TaskUpdate where
  name : Option (Option String)
  emoji : Option (Option String)
  category : Option (Option String)
deriving DecidableEq, Repr

/-- The ids of `group.members`, the users holding a membership row of the
group, in row order. -/
def groupMemberIds (gid : Nat) (db : DB) : List Nat :=
  (db.memberships.filter (byGroup gid)).map (fun m => m.userId)

/-- `set(assigned_user_ids) - group_member_ids` (tasks.py): the candidate
ids that are not current members, as a duplicate-free list. -/
def invalidAssigneeIds (l memberIds : List Nat) : List Nat :=
  (l.filter (fun u => !(memberIds.contains u))).dedup

/-- The assignment insert loop of tasks.py: one
`task_assignments.insert().values(task_id=tid, user_id=u)` per id, in
order.  The table's primary key `(task_id, user_id)` makes a duplicate
insert an integrity error, which aborts the whole transaction. -/
def insertAssignments (tid : Nat) (l : List Nat) (now : Nat)
    (rows : List Assignment) : Except ApiError (List Assignment) :=
  match l with
  | [] => .ok rows
  | u :: rest =>
    if rows.any (fun a => a.taskId == tid && a.userId == u) then
      .error .integrityError
    else
      insertAssignments tid rest now
        (rows ++ [{ taskId := tid, userId := u, assignedAt := now }])

/-- `create_task` (tasks.py).  The `get_current_group_member` dependency
(deps.py) resolves the group and 404s/403s exactly like
`verify_group_membership`.  With no explicit assignee list the task is
assigned to all current members; an explicit (non-empty) list is validated
against current membership and the offending ids are reported; the task
row and its assignment rows are committed together. -/
def create_task (gid : Nat) (td : TaskCreate) (now uid : Nat) (db : DB) :
    Except ApiError DB :=
  match verify_group_membership gid uid db with
  | .error e => .error e
  | .ok _g =>
    let memberIds := groupMemberIds gid db
    let assigned := match td.assignedUserIds with
      | none => memberIds
      | some l => l
    let bad := if assigned.isEmpty then [] else invalidAssigneeIds assigned memberIds
    if bad.isEmpty = false then .error (.invalidAssignees bad)
    else
      let t : Task :=
        { id := freshTaskId db, name := td.name, emoji := td.emoji,
          category := td.category, groupId := gid, createdAt := now,
          isActive := true }
      match insertAssignments t.id assigned now db.assignments with
      | .error e => .error e
      | .ok rows => .ok { db with tasks := db.tasks ++ [t], assignments := rows }

/-- `update_task` (tasks.py): partial update of `name`, `emoji`,
`category`.  Only fields present in the request are written; `name` is a
NOT NULL column, so a request carrying `name: null` makes the commit fail
and nothing persists. -/
def update_task (gid tid : Nat) (td : TaskUpdate) (uid : Nat) (db : DB) :
    Except ApiError DB :=
  match verify_group_membership gid uid db with
  | .error e => .error e
  | .ok _g =>
    match db.tasks.find? (fun t => t.id == tid && t.groupId == gid) with
    | none => .error .notFound
    | some t =>
      let newName : Option String := match td.name with
        | none => some t.name
        | some v => v
      let newEmoji : Option String := match td.emoji with
        | none => t.emoji
        | some v => v
      let newCategory : Option String := match td.category with
        | none => t.category
        | some v => v
      match newName with
      | none => .error .integrityError
      | some nm =>
        let t2 := { t with name := nm, emoji := newEmoji, category := newCategory }
        .ok { db with tasks := db.tasks.map (fun x => if x.id == tid then t2 else x) }

/-- `update_task_assignments` (tasks.py): full-set replacement of a
task's assignment rows — validate the new list against current
membership, delete every existing row of the task, insert the new rows,
all inside the one transaction ended by the single `db.commit()`. -/
def update_task_assignments (gid tid : Nat) (l : List Nat) (uid now : Nat)
    (db : DB) : Except ApiError DB :=
  match verify_group_membership gid uid db with
  | .error e => .error e
  | .ok _g =>
    match db.tasks.find? (fun t => t.id == tid && t.groupId == gid) with
    | none => .error .notFound
    | some _t =>
      let bad := if l.isEmpty then [] else invalidAssigneeIds l (groupMemberIds gid db)
      if bad.isEmpty = false then .error (.invalidAssignees bad)
      else
        let remaining := db.assignments.filter (fun a => a.taskId != tid)
        match insertAssignments tid l now remaining with
        | .error e => .error e
        | .ok rows => .ok { db with assignments := rows }

/-- One completed membership-changing operation, at the granularity the
API exposes: group creation (both of its commits having succeeded), join,
leave, member removal.  The acting user of `create` and `join` is an
authenticated row of the `users` table, whose autoincrement primary key is
at least 1; for `leave` and `remove` the handler itself verifies
membership. -/
inductive StepOp : DB → DB → Prop where
  | create (uid : Nat) (name : String) (gen : Nat → String) (now : Nat)
      (db s1 s2 : DB) : 1 ≤ uid →
      create_group uid name gen now db = .ok (s1, s2) → StepOp db s2
  | join (code : String) (uid now : Nat) (db s2 : DB) : 1 ≤ uid →
      join_group code uid now db = .ok s2 → StepOp db s2
  | leave (gid uid : Nat) (db s2 : DB) :
      leave_group gid uid db = .ok s2 → StepOp db s2
  | remove (gid targetUid uid : Nat) (db s2 : DB) :
      remove_member gid targetUid uid db = .ok s2 → StepOp db s2

/-- Database states reachable from the empty store through completed
operations. -/
inductive ReachableOp : DB → Prop where
  | init : ReachableOp DB.empty
  | step {s s2 : DB} : ReachableOp s → StepOp s s2 → ReachableOp s2

/-- One committed transaction.  This refines `StepOp` to the granularity
of `db.commit()` calls: `create_group` runs two transactions, and the
state after its first commit (`createMid`) is already visible to every
other session and is the state the store keeps if the request dies before
its second commit. -/
inductive StepC : DB → DB → Prop where
  | createMid (uid : Nat) (name : String) (gen : Nat → String) (now : Nat)
      (db s1 s2 : DB) : 1 ≤ uid →
      create_group uid name gen now db = .ok (s1, s2) → StepC db s1
  | createEnd (uid : Nat) (name : String) (gen : Nat → String) (now : Nat)
      (db s1 s2 : DB) : 1 ≤ uid →
      create_group uid name gen now db = .ok (s1, s2) → StepC s1 s2
  | join (code : String) (uid now : Nat) (db s2 : DB) : 1 ≤ uid →
      join_group code uid now db = .ok s2 → StepC db s2
  | leave (gid uid : Nat) (db s2 : DB) :
      leave_group gid uid db = .ok s2 → StepC db s2
  | remove (gid targetUid uid : Nat) (db s2 : DB) :
      remove_member gid targetUid uid db = .ok s2 → StepC db s2

/-- Committed states reachable from the empty store, at transaction
granularity. -/
inductive ReachableC : DB → Prop where
  | init : ReachableC DB.empty
  | step {s s2 : DB} : ReachableC s → StepC s s2 → ReachableC s2

/-- The admin-uniqueness invariant as the spec states it: every group row
with at least one membership row has exactly one `role="admin"` row. -/
def AdminUnique (db : DB) : Prop :=
  ∀ g ∈ db.groups, get_member_count g.id db ≠ 0 → (adminRows g.id db).length = 1

instance (db : DB) : Decidable (AdminUnique db) := by
  unfold AdminUnique; infer_instance

/-- The primary key of a `group_members` row. -/
def pairKey : Membership → Nat × Nat := fun m => (m.groupId, m.userId)

/-- The primary key of a `task_assignments` row. -/
def assignKey : Assignment → Nat × Nat := fun a => (a.taskId, a.userId)

/-- Structural well-formedness every committed state of the store enjoys:
the `(group_id, user_id)` primary key of `group_members` is
duplicate-free, membership user ids are real autoincrement user-table
keys (at least 1), roles are only ever written as `"admin"` or
`"member"`, membership rows reference existing group rows (foreign key),
and group ids are duplicate-free (primary key). -/
def Wf (db : DB) : Prop :=
  (db.memberships.map pairKey).Nodup ∧
  (∀ m ∈ db.memberships, 1 ≤ m.userId) ∧
  (∀ m ∈ db.memberships, m.role = "admin" ∨ m.role = "member") ∧
  (∀ m ∈ db.memberships, ∃ g ∈ db.groups, g.id = m.groupId) ∧
  (db.groups.map (fun g => g.id)).Nodup

/-- The inductive invariant: well-formedness together with every group row
owning exactly one admin membership row (which forces every group to be
non-empty). -/
def Inv (db : DB) : Prop :=
  Wf db ∧ ∀ g ∈ db.groups, (adminRows g.id db).length = 1

/-- C4.  The succession query orders by `joined_at` alone, with no
secondary key: in a group whose remaining members 5 and 3 share the
minimal `joined_at` (user 5's row inserted first), the leaving admin 1 is
succeeded by the row the store returns first — user 5 — and not by the
smallest user id 3, as the claimed tie-break by user id ascending would
require. -/
theorem c4_tie_resolved_by_row_order_not_by_user_id :
    leave_group 1 1
      ⟨[⟨1, "Home", "C", 0, some 1⟩],
       [⟨1, 1, 0, "admin"⟩, ⟨1, 5, 10, "member"⟩, ⟨1, 3, 10, "member"⟩],
       [], [], []⟩
    = .ok ⟨[⟨1, "Home", "C", 0, some 5⟩],
           [⟨1, 5, 10, "admin"⟩, ⟨1, 3, 10, "member"⟩],
           [], [], []⟩ := rfl

/-- C5.  `create_group` commits the group row in a first transaction and
the creator's admin membership row only in a second one: on the empty
store, the state after the first commit (the first component below) is a
committed state holding one group row and no membership row at all, so a
failure between the two commits leaves an admin-less, member-less group
behind. -/
theorem c5_group_row_committed_without_membership :
    create_group 1 "Home" (fun _ => "AB12CD34") 0 DB.empty =
      .ok (⟨[⟨1, "Home", "AB12CD34", 0, some 1⟩], [], [], [], []⟩,
           ⟨[⟨1, "Home", "AB12CD34", 0, some 1⟩], [⟨1, 1, 0, "admin"⟩],
            [], [], []⟩) := rfl

/-- C10.  A successful partial task update writes only the task found by
`(task_id, group_id)`, and of that task only the fields present in the
request: groups, memberships, assignments and completions are returned
unchanged, the updated task keeps its `id`, `group_id`, `created_at` and
`is_active`, every absent field keeps its old value, and every other task
row is untouched. -/
theorem c10_update_task_is_frame_preserving (gid tid : Nat) (td : TaskUpdate)
    (uid : Nat) (db db' : DB)
    (h : update_task gid tid td uid db = .ok db') :
    db'.groups = db.groups ∧ db'.memberships = db.memberships ∧
    db'.assignments = db.assignments ∧ db'.completions = db.completions ∧
    ∃ t t2, db.tasks.find? (fun x => x.id == tid && x.groupId == gid) = some t ∧
      db'.tasks = db.tasks.map (fun x => if x.id == tid then t2 else x) ∧
      t2.id = t.id ∧ t2.groupId = t.groupId ∧ t2.createdAt = t.createdAt ∧
      t2.isActive = t.isActive ∧
      (td.name = none → t2.name = t.name) ∧
      (td.emoji = none → t2.emoji = t.emoji) ∧
      (td.category = none → t2.category = t.category) ∧
      (∀ x ∈ db.tasks, x.id ≠ tid → x ∈ db'.tasks) := by
  simp only [update_task] at h
  split at h
  · exact Except.noConfusion h
  split at h
  · exact Except.noConfusion h
  next t ht =>
  split at h
  · exact Except.noConfusion h
  next nm hnm =>
  injection h with h
  subst h
  refine ⟨rfl, rfl, rfl, rfl, t, _, ht, rfl, rfl, rfl, rfl, rfl, ?_, ?_, ?_, ?_⟩
  · intro hn
    rw [hn] at hnm
    exact (Option.some.inj hnm).symm
  · intro hn
    simp only [hn]
  · intro hn
    simp only [hn]
  · intro x hx hne
    have : (fun y : Task => if y.id == tid then
        { t with name := nm,
                 emoji := match td.emoji with | none => t.emoji | some v => v,
                 category := match td.category with | none => t.category | some v => v }
        else y) x = x := by
      simp only [beq_iff_eq, if_neg hne]
    exact this ▸ List.mem_map_of_mem _ hx

/-- Witness for C10: updating only the name of task 1 in a concrete store
leaves the membership and assignment tables unchanged. -/
theorem c10_witness :
    (⟨[⟨1, "Home", "C", 0, some 1⟩], [⟨1, 1, 0, "admin"⟩],
      [⟨1, "pots", none, none, 1, 7, true⟩], [⟨1, 1, 7⟩], []⟩ : DB).memberships
      = (⟨[⟨1, "Home", "C", 0, some 1⟩], [⟨1, 1, 0, "admin"⟩],
          [⟨1, "dishes", none, none, 1, 7, true⟩], [⟨1, 1, 7⟩], []⟩ : DB).memberships
    ∧ (⟨[⟨1, "Home", "C", 0, some 1⟩], [⟨1, 1, 0, "admin"⟩],
        [⟨1, "pots", none, none, 1, 7, true⟩], [⟨1, 1, 7⟩], []⟩ : DB).assignments
      = (⟨[⟨1, "Home", "C", 0, some 1⟩], [⟨1, 1, 0, "admin"⟩],
          [⟨1, "dishes", none, none, 1, 7, true⟩], [⟨1, 1, 7⟩], []⟩ : DB).assignments := by
  have h := c10_update_task_is_frame_preserving 1 1
    ⟨some (some "pots"), none, none⟩ 1
    ⟨[⟨1, "Home", "C", 0, some 1⟩], [⟨1, 1, 0, "admin"⟩],
     [⟨1, "dishes", none, none, 1, 7, true⟩], [⟨1, 1, 7⟩], []⟩
    ⟨[⟨1, "Home", "C", 0, some 1⟩], [⟨1, 1, 0, "admin"⟩],
     [⟨1, "pots", none, none, 1, 7, true⟩], [⟨1, 1, 7⟩], []⟩ rfl
  exact ⟨h.2.1, h.2.2.1⟩

/-- A successful run of the assignment insert loop appends one row per
requested id, in order, all belonging to the given task. -/
theorem insertAssignments_ok_shape (tid now : Nat) :
    ∀ (l : List Nat) (rows r : List Assignment),
      insertAssignments tid l now rows = .ok r →
      ∃ nr, r = rows ++ nr ∧ (∀ a ∈ nr, a.taskId = tid) ∧
        nr.map (fun a => a.userId) = l := by
  intro l
  induction l with
  | nil =>
    intro rows r h
    simp only [insertAssignments] at h
    injection h with h
    exact ⟨[], by simp [h.symm], by simp, rfl⟩
  | cons u rest ih =>
    intro rows r h
    simp only [insertAssignments] at h
    split at h
    · exact Except.noConfusion h
    obtain ⟨nr, hr, htid, hmap⟩ := ih _ _ h
    refine ⟨{ taskId := tid, userId := u, assignedAt := now } :: nr, ?_, ?_, ?_⟩
    · simp [hr]
    · intro a ha
      rcases List.mem_cons.mp ha with rfl | ha
      · rfl
      · exact htid a ha
    · simp [hmap]

/-- The insert loop's duplicate check only looks at the primary-key
projection of the accumulated rows, so two runs over key-equal
accumulators at different clock values make the same decisions and
produce key-equal results. -/
theorem insertAssignments_key_congr (tid now1 now2 : Nat) :
    ∀ (l : List Nat) (b1 b2 r1 : List Assignment),
      b1.map assignKey = b2.map assignKey →
      insertAssignments tid l now1 b1 = .ok r1 →
      ∃ r2, insertAssignments tid l now2 b2 = .ok r2 ∧
        r1.map assignKey = r2.map assignKey := by
  intro l
  induction l with
  | nil =>
    intro b1 b2 r1 hk h
    simp only [insertAssignments] at h ⊢
    injection h with h
    exact ⟨b2, rfl, h ▸ hk⟩
  | cons u rest ih =>
    intro b1 b2 r1 hk h
    have hany : ∀ b : List Assignment,
        (b.any fun a => a.taskId == tid && a.userId == u)
          = ((b.map assignKey).any fun k => k.1 == tid && k.2 == u) := by
      intro b
      induction b with
      | nil => rfl
      | cons a bs ihb => simp only [List.map_cons, List.any_cons, ihb, assignKey]
    simp only [insertAssignments] at h ⊢
    rw [hany b2, ← hk, ← hany b1]
    split at h
    · exact Except.noConfusion h
    next hdup =>
    rw [if_neg hdup]
    exact ih (b1 ++ [⟨tid, u, now1⟩]) (b2 ++ [⟨tid, u, now2⟩]) r1
      (by simp [hk, assignKey]) h

/-- Forward characterization of a successful assignment replacement: if
the auth, task lookup, validation and insert loop all pass, the result is
the input state with the task's assignment rows replaced. -/
theorem update_task_assignments_run (gid tid : Nat) (l : List Nat)
    (uid now : Nat) (db : DB) (g : Group) (t : Task) (rows : List Assignment)
    (hv : verify_group_membership gid uid db = .ok g)
    (ht : db.tasks.find? (fun t => t.id == tid && t.groupId == gid) = some t)
    (hcond : (if l.isEmpty then []
              else invalidAssigneeIds l (groupMemberIds gid db)).isEmpty = true)
    (hins : insertAssignments tid l now
        (db.assignments.filter fun a => a.taskId != tid) = .ok rows) :
    update_task_assignments gid tid l uid now db =
      .ok { db with assignments := rows } := by
  simp only [update_task_assignments, hv, ht, hcond, hins]
  rfl

/-- C9.  Assignment replacement is idempotent: after a successful
replacement of task `tid`'s assignment rows with the list `l`, running the
very same replacement again succeeds and returns the state unchanged; and
even when the second run happens at a different clock value, the resulting
assignment table has the same `(task_id, user_id)` rows. -/
theorem c9_assignment_replacement_idempotent (gid tid : Nat) (l : List Nat)
    (uid now : Nat) (db db' : DB)
    (h : update_task_assignments gid tid l uid now db = .ok db') :
    update_task_assignments gid tid l uid now db' = .ok db' ∧
    ∀ now2, ∃ db'', update_task_assignments gid tid l uid now2 db' = .ok db'' ∧
      db''.assignments.map assignKey = db'.assignments.map assignKey := by
  simp only [update_task_assignments] at h
  split at h
  · exact Except.noConfusion h
  next g hv =>
  split at h
  · exact Except.noConfusion h
  next t ht =>
  by_cases hbad : (if l.isEmpty then []
      else invalidAssigneeIds l (groupMemberIds gid db)).isEmpty = false
  · rw [if_pos hbad] at h
    exact Except.noConfusion h
  rw [if_neg hbad] at h
  split at h
  · exact Except.noConfusion h
  next rows hins =>
  injection h with h
  subst h
  have hcond' : (if l.isEmpty then []
      else invalidAssigneeIds l (groupMemberIds gid db)).isEmpty = true := by
    revert hbad
    cases (if l.isEmpty then [] else invalidAssigneeIds l (groupMemberIds gid db)).isEmpty
    · intro hc; exact absurd rfl hc
    · intro _; rfl
  -- the second run deletes exactly the rows the first run inserted
  obtain ⟨nr, hrshape, hnrtid, -⟩ := insertAssignments_ok_shape tid now l _ rows hins
  have hrem : rows.filter (fun a => a.taskId != tid)
      = db.assignments.filter (fun a => a.taskId != tid) := by
    rw [hrshape, List.filter_append]
    have h1 : (db.assignments.filter (fun a => a.taskId != tid)).filter
        (fun a => a.taskId != tid) = db.assignments.filter (fun a => a.taskId != tid) := by
      rw [List.filter_filter]
      exact List.filter_congr (fun a _ => Bool.and_self _)
    have h2 : nr.filter (fun a => a.taskId != tid) = [] := by
      rw [List.filter_eq_nil_iff]
      intro a ha
      simp [hnrtid a ha]
    rw [h1, h2, List.append_nil]
  have hv2 : verify_group_membership gid uid { db with assignments := rows } = .ok g := hv
  have ht2 : ({ db with assignments := rows } : DB).tasks.find?
      (fun t => t.id == tid && t.groupId == gid) = some t := ht
  have hcond2 : (if l.isEmpty then []
      else invalidAssigneeIds l (groupMemberIds gid { db with assignments := rows })).isEmpty
        = true := hcond'
  constructor
  · have hins2 : insertAssignments tid l now
        (({ db with assignments := rows } : DB).assignments.filter
          fun a => a.taskId != tid) = .ok rows := by
      show insertAssignments tid l now (rows.filter fun a => a.taskId != tid) = .ok rows
      rw [hrem]
      exact hins
    exact update_task_assignments_run gid tid l uid now _ g t rows hv2 ht2 hcond2 hins2
  · intro now2
    obtain ⟨r2, hr2, hkey⟩ := insertAssignments_key_congr tid now now2 l
      (db.assignments.filter fun a => a.taskId != tid)
      (db.assignments.filter fun a => a.taskId != tid) rows rfl hins
    have hins2 : insertAssignments tid l now2
        (({ db with assignments := rows } : DB).assignments.filter
          fun a => a.taskId != tid) = .ok r2 := by
      show insertAssignments tid l now2 (rows.filter fun a => a.taskId != tid) = .ok r2
      rw [hrem]
      exact hr2
    exact ⟨{ { db with assignments := rows } with assignments := r2 },
      update_task_assignments_run gid tid l uid now2 _ g t r2 hv2 ht2 hcond2 hins2,
      hkey.symm⟩

/-- Witness for C9: replacing task 1's assignments with `[2]` twice in a
concrete two-member store returns the state of the first replacement
unchanged. -/
theorem c9_witness :
    update_task_assignments 1 1 [2] 1 9
        ⟨[⟨1, "Home", "C", 0, some 1⟩],
         [⟨1, 1, 0, "admin"⟩, ⟨1, 2, 5, "member"⟩],
         [⟨1, "dishes", none, none, 1, 7, true⟩],
         [⟨1, 2, 9⟩], []⟩
      = .ok ⟨[⟨1, "Home", "C", 0, some 1⟩],
             [⟨1, 1, 0, "admin"⟩, ⟨1, 2, 5, "member"⟩],
             [⟨1, "dishes", none, none, 1, 7, true⟩],
             [⟨1, 2, 9⟩], []⟩ :=
  (c9_assignment_replacement_idempotent 1 1 [2] 1 9
    ⟨[⟨1, "Home", "C", 0, some 1⟩],
     [⟨1, 1, 0, "admin"⟩, ⟨1, 2, 5, "member"⟩],
     [⟨1, "dishes", none, none, 1, 7, true⟩],
     [⟨1, 1, 7⟩, ⟨1, 2, 7⟩], []⟩
    ⟨[⟨1, "Home", "C", 0, some 1⟩],
     [⟨1, 1, 0, "admin"⟩, ⟨1, 2, 5, "member"⟩],
     [⟨1, "dishes", none, none, 1, 7, true⟩],
     [⟨1, 2, 9⟩], []⟩ rfl).1

/-- C6.  A task-creation request whose explicit assignee list contains a
non-member fails with the 400 error carrying exactly the offending ids
(each listed id is a requested id that is not a current member, every such
id is listed, none twice), and the handler raises before touching the
store, so no task row and no assignment row is created. -/
theorem c6_invalid_assignees_rejected (gid now uid : Nat) (td : TaskCreate)
    (l : List Nat) (db : DB) (g : Group)
    (hl : td.assignedUserIds = some l)
    (hv : verify_group_membership gid uid db = .ok g)
    (x : Nat) (hx : x ∈ l) (hxm : x ∉ groupMemberIds gid db) :
    ∃ bad, create_task gid td now uid db = .error (.invalidAssignees bad) ∧
      bad ≠ [] ∧ bad.Nodup ∧
      ∀ y, y ∈ bad ↔ (y ∈ l ∧ y ∉ groupMemberIds gid db) := by
  have hmem : ∀ y, y ∈ invalidAssigneeIds l (groupMemberIds gid db) ↔
      (y ∈ l ∧ y ∉ groupMemberIds gid db) := by
    intro y
    simp [invalidAssigneeIds, List.mem_dedup, List.mem_filter]
  have hxbad : x ∈ invalidAssigneeIds l (groupMemberIds gid db) :=
    (hmem x).mpr ⟨hx, hxm⟩
  have hbadne : invalidAssigneeIds l (groupMemberIds gid db) ≠ [] :=
    List.ne_nil_of_mem hxbad
  have hlne : l.isEmpty = false := by
    cases l with
    | nil => cases hx
    | cons a as => rfl
  have hbadempty : (invalidAssigneeIds l (groupMemberIds gid db)).isEmpty = false := by
    cases hb : invalidAssigneeIds l (groupMemberIds gid db) with
    | nil => exact absurd hb hbadne
    | cons a as => rfl
  refine ⟨invalidAssigneeIds l (groupMemberIds gid db), ?_, hbadne,
    List.nodup_dedup _, hmem⟩
  simp only [create_task, hv, hl, hlne, Bool.false_eq_true, if_false, hbadempty,
    if_true]

/-- Witness for C6: creating a task assigned to the non-member 9 in a
one-member group fails with the 400 listing exactly `[9]`. -/
theorem c6_witness :
    ∃ bad, create_task 1 ⟨"dishes", none, none, some [9]⟩ 7 1
        ⟨[⟨1, "Home", "C", 0, some 1⟩], [⟨1, 1, 0, "admin"⟩], [], [], []⟩
        = .error (.invalidAssignees bad) ∧
      bad ≠ [] ∧ bad.Nodup ∧
      ∀ y, y ∈ bad ↔ (y ∈ [9] ∧ y ∉ groupMemberIds 1
        ⟨[⟨1, "Home", "C", 0, some 1⟩], [⟨1, 1, 0, "admin"⟩], [], [], []⟩) :=
  c6_invalid_assignees_rejected 1 7 1 ⟨"dishes", none, none, some [9]⟩ [9]
    ⟨[⟨1, "Home", "C", 0, some 1⟩], [⟨1, 1, 0, "admin"⟩], [], [], []⟩
    ⟨1, "Home", "C", 0, some 1⟩ rfl rfl 9 (by decide) (by decide)

/-- The retry loop finds no code exactly when all five candidates
collide. -/
theorem pickInviteCode_eq_none_iff (gen : Nat → String) (db : DB) :
    pickInviteCode gen db = none ↔ ∀ i < 5, codeExists (gen i) db = true := by
  unfold pickInviteCode
  rw [Option.map_eq_none', List.find?_eq_none]
  constructor
  · intro h i hi
    have := h i (List.mem_range.mpr hi)
    simpa using this
  · intro h i hi
    have := h i (List.mem_range.mp hi)
    simp [this]

/-- The retry loop stops at the first fresh candidate. -/
theorem pickInviteCode_first_fresh (gen : Nat → String) (db : DB) (i : Nat)
    (hi : i < 5) (hfresh : codeExists (gen i) db = false)
    (hprev : ∀ j < i, codeExists (gen j) db = true) :
    pickInviteCode gen db = some (gen i) := by
  have hr : List.range 5 = [0, 1, 2, 3, 4] := rfl
  unfold pickInviteCode
  rw [hr]
  interval_cases i
  · simp [List.find?, hfresh]
  · have h0 := hprev 0 (by norm_num)
    simp [List.find?, h0, hfresh]
  · have h0 := hprev 0 (by norm_num)
    have h1 := hprev 1 (by norm_num)
    simp [List.find?, h0, h1, hfresh]
  · have h0 := hprev 0 (by norm_num)
    have h1 := hprev 1 (by norm_num)
    have h2 := hprev 2 (by norm_num)
    simp [List.find?, h0, h1, h2, hfresh]
  · have h0 := hprev 0 (by norm_num)
    have h1 := hprev 1 (by norm_num)
    have h2 := hprev 2 (by norm_num)
    have h3 := hprev 3 (by norm_num)
    simp [List.find?, h0, h1, h2, h3, hfresh]

/-- C7.  Invite-code generation during group creation tries the five
candidates `gen 0 .. gen 4` at most: the operation fails with the
exhaustion error exactly when all five collide with existing invite codes
(and then no group row is created), and when the attempts up to the first
fresh candidate `gen i` collide, the group is created carrying exactly
`gen i`. -/
theorem c7_invite_code_bounded_retry (uid : Nat) (name : String)
    (gen : Nat → String) (now : Nat) (db : DB) :
    (create_group uid name gen now db = .error .codeExhausted ↔
      ∀ i < 5, codeExists (gen i) db = true) ∧
    (∀ i, i < 5 → codeExists (gen i) db = false →
      (∀ j < i, codeExists (gen j) db = true) →
      create_group uid name gen now db = .ok
        ({ db with groups := db.groups ++
            [⟨freshGroupId db, name, gen i, now, some uid⟩] },
         { db with
            groups := db.groups ++
              [⟨freshGroupId db, name, gen i, now, some uid⟩],
            memberships := db.memberships ++
              [⟨freshGroupId db, uid, now, "admin"⟩] })) := by
  constructor
  · constructor
    · intro h
      cases hp : pickInviteCode gen db with
      | none => exact (pickInviteCode_eq_none_iff gen db).mp hp
      | some c =>
        rw [create_group, hp] at h
        exact Except.noConfusion h
    · intro h
      have hp := (pickInviteCode_eq_none_iff gen db).mpr h
      rw [create_group, hp]
  · intro i hi hfresh hprev
    have hp := pickInviteCode_first_fresh gen db i hi hfresh hprev
    rw [create_group, hp]

/-- Witness for C7, both directions at concrete stores: a generator
colliding on all five attempts aborts with the exhaustion error, and a
generator colliding only on its first attempt creates the group with the
second candidate. -/
theorem c7_witness :
    create_group 2 "Flat" (fun _ => "X") 3
        ⟨[⟨1, "Home", "X", 0, some 1⟩], [⟨1, 1, 0, "admin"⟩], [], [], []⟩
      = .error .codeExhausted ∧
    create_group 2 "Flat" (fun i => if i == 0 then "X" else "Y") 3
        ⟨[⟨1, "Home", "X", 0, some 1⟩], [⟨1, 1, 0, "admin"⟩], [], [], []⟩
      = .ok (⟨[⟨1, "Home", "X", 0, some 1⟩, ⟨2, "Flat", "Y", 3, some 2⟩],
             [⟨1, 1, 0, "admin"⟩], [], [], []⟩,
             ⟨[⟨1, "Home", "X", 0, some 1⟩, ⟨2, "Flat", "Y", 3, some 2⟩],
             [⟨1, 1, 0, "admin"⟩, ⟨2, 2, 3, "admin"⟩], [], [], []⟩) := by
  constructor
  · exact (c7_invite_code_bounded_retry 2 "Flat" (fun _ => "X") 3
      ⟨[⟨1, "Home", "X", 0, some 1⟩], [⟨1, 1, 0, "admin"⟩], [], [], []⟩).1.mpr
      (by decide)
  · exact (c7_invite_code_bounded_retry 2 "Flat" (fun i => if i == 0 then "X" else "Y") 3
      ⟨[⟨1, "Home", "X", 0, some 1⟩], [⟨1, 1, 0, "admin"⟩], [], [], []⟩).2 1
      (by norm_num) (by decide) (by decide)

/-- Every element of a list of naturals is bounded by the `foldr max 0`
over it (the autoincrement ids are fresh). -/
theorem le_foldr_max (l : List Nat) : ∀ x ∈ l, x ≤ l.foldr max 0 := by
  induction l with
  | nil => intro x hx; cases hx
  | cons a as ih =>
    intro x hx
    rcases List.mem_cons.mp hx with rfl | hx
    · exact Nat.le_max_left _ _
    · exact le_trans (ih x hx) (Nat.le_max_right _ _)

/-- Succession never touches the task, assignment or completion tables. -/
theorem promote_oldest_member_tables (gid ex : Nat) (db : DB) :
    ((promote_oldest_member gid ex db).1).tasks = db.tasks ∧
    ((promote_oldest_member gid ex db).1).assignments = db.assignments ∧
    ((promote_oldest_member gid ex db).1).completions = db.completions := by
  unfold promote_oldest_member
  split
  · exact ⟨rfl, rfl, rfl⟩
  · split
    · exact ⟨rfl, rfl, rfl⟩
    · exact ⟨rfl, rfl, rfl⟩

/-- C8 counterexample to the unqualified claim: user 1's group holds a
task created with no explicit assignee list (snapshot assignment row
`(task 1, user 1)`); the membership change "sole member 1 leaves" then
deletes the group by cascade, removing that assignment row — so a later
membership change does remove rows from the task's assignment set. -/
theorem c8_membership_change_can_remove_assignment_rows :
    create_task 1 ⟨"dishes", none, none, none⟩ 7 1
        ⟨[⟨1, "Home", "CODE", 0, some 1⟩], [⟨1, 1, 0, "admin"⟩], [], [], []⟩
      = .ok ⟨[⟨1, "Home", "CODE", 0, some 1⟩], [⟨1, 1, 0, "admin"⟩],
             [⟨1, "dishes", none, none, 1, 7, true⟩], [⟨1, 1, 7⟩], []⟩ ∧
    leave_group 1 1
        ⟨[⟨1, "Home", "CODE", 0, some 1⟩], [⟨1, 1, 0, "admin"⟩],
         [⟨1, "dishes", none, none, 1, 7, true⟩], [⟨1, 1, 7⟩], []⟩
      = .ok ⟨[], [], [], [], []⟩ := ⟨rfl, rfl⟩

/-- C8 (amended).  A task created with the assignee field absent is
assigned to exactly the members of the group at creation time, in order (a
snapshot), and the other assignment rows are untouched; and membership
changes that do not delete the group — any join, and any leave or removal
that is not a sole-member removal — leave the assignment table completely
unchanged. -/
theorem c8_default_assignment_snapshot_and_frame (db : DB) :
    (∀ gid (td : TaskCreate) now uid db', td.assignedUserIds = none →
      (∀ a ∈ db.assignments, ∃ t ∈ db.tasks, t.id = a.taskId) →
      create_task gid td now uid db = .ok db' →
      ((db'.assignments.filter (fun a => a.taskId == freshTaskId db)).map
          (fun a => a.userId) = groupMemberIds gid db ∧
        db'.assignments.filter (fun a => a.taskId != freshTaskId db)
          = db.assignments)) ∧
    (∀ code uid now2 s', join_group code uid now2 db = .ok s' →
      s'.assignments = db.assignments) ∧
    (∀ gid uid s', get_member_count gid db ≠ 1 →
      leave_group gid uid db = .ok s' → s'.assignments = db.assignments) ∧
    (∀ gid tgt uid s', (tgt = uid → get_member_count gid db ≠ 1) →
      remove_member gid tgt uid db = .ok s' →
      s'.assignments = db.assignments) := by
  refine ⟨?_, ?_, ?_, ?_⟩
  · intro gid td now uid db' habsent hfk h
    simp only [create_task, habsent] at h
    split at h
    · exact Except.noConfusion h
    have hval : invalidAssigneeIds (groupMemberIds gid db) (groupMemberIds gid db)
        = [] := by
      have : (groupMemberIds gid db).filter
          (fun u => !((groupMemberIds gid db).contains u)) = [] := by
        rw [List.filter_eq_nil_iff]
        intro u hu
        simp [hu]
      simp [invalidAssigneeIds, this]
    rw [hval] at h
    simp only [List.isEmpty_nil, ite_self] at h
    split at h
    · simp at h
    split at h
    · exact Except.noConfusion h
    next rows hins =>
    injection h with h
    subst h
    obtain ⟨nr, hshape, htid, hmap⟩ :=
      insertAssignments_ok_shape (freshTaskId db) now _ _ rows hins
    subst hshape
    have hold : ∀ a ∈ db.assignments, (a.taskId == freshTaskId db) = false := by
      intro a ha
      obtain ⟨t, htmem, hteq⟩ := hfk a ha
      have hle : a.taskId ≤ (db.tasks.map (fun t => t.id)).foldr max 0 :=
        hteq ▸ le_foldr_max _ _ (List.mem_map_of_mem _ htmem)
      have hne : a.taskId ≠ freshTaskId db := by
        unfold freshTaskId
        omega
      exact beq_eq_false_iff_ne.mpr hne
    constructor
    · show ((db.assignments ++ nr).filter (fun a => a.taskId == freshTaskId db)).map
        (fun a => a.userId) = groupMemberIds gid db
      rw [List.filter_append]
      have h1 : db.assignments.filter (fun a => a.taskId == freshTaskId db) = [] :=
        List.filter_eq_nil_iff.mpr (fun a ha => by simp [hold a ha])
      have h2 : nr.filter (fun a => a.taskId == freshTaskId db) = nr :=
        List.filter_eq_self.mpr (fun a ha => by simp [htid a ha])
      rw [h1, h2, List.nil_append]
      exact hmap
    · show (db.assignments ++ nr).filter (fun a => a.taskId != freshTaskId db)
        = db.assignments
      rw [List.filter_append]
      have h1 : db.assignments.filter (fun a => a.taskId != freshTaskId db)
          = db.assignments :=
        List.filter_eq_self.mpr (fun a ha => by simp [bne, hold a ha])
      have h2 : nr.filter (fun a => a.taskId != freshTaskId db) = [] :=
        List.filter_eq_nil_iff.mpr (fun a ha => by simp [bne, htid a ha])
      rw [h1, h2, List.append_nil]
  · intro code uid now2 s' h
    simp only [join_group] at h
    split at h
    · exact Except.noConfusion h
    split at h
    · exact Except.noConfusion h
    injection h with h
    subst h
    rfl
  · intro gid uid s' hcnt h
    simp only [leave_group] at h
    split at h
    · exact Except.noConfusion h
    split at h
    · next hc =>
      simp only [beq_iff_eq] at hc
      exact absurd hc hcnt
    injection h with h
    subst h
    show (removeMembershipRow gid uid _).assignments = db.assignments
    unfold removeMembershipRow
    split
    · exact (promote_oldest_member_tables gid uid db).2.1
    · rfl
  · intro gid tgt uid s' hcnt h
    simp only [remove_member] at h
    split at h
    · exact Except.noConfusion h
    split at h
    · exact Except.noConfusion h
    split at h
    · exact Except.noConfusion h
    split at h
    · exact Except.noConfusion h
    split at h
    · split at h
      · next htgt hc =>
        simp only [beq_iff_eq] at htgt hc
        exact absurd hc (hcnt htgt)
      · injection h with h
        subst h
        show (removeMembershipRow gid tgt _).assignments = db.assignments
        unfold removeMembershipRow
        exact (promote_oldest_member_tables gid uid db).2.1
    · injection h with h
      subst h
      rfl

/-- Witness for the amended C8 at concrete stores: a default-assigned task
in a two-member group snapshots exactly the members 1 and 2, and a
subsequent join (user 3) and a non-emptying leave (member 2) leave the
assignment table untouched. -/
theorem c8_witness :
    (([⟨1, 1, 7⟩, ⟨1, 2, 7⟩] : List Assignment).filter
        (fun a => a.taskId == 1)).map (fun a => a.userId) = [1, 2] ∧
    ([⟨1, 1, 7⟩, ⟨1, 2, 7⟩] : List Assignment).filter
        (fun a => a.taskId != 1) = [] ∧
    (⟨[⟨1, "Home", "C", 0, some 1⟩],
      [⟨1, 1, 0, "admin"⟩, ⟨1, 2, 5, "member"⟩, ⟨1, 3, 9, "member"⟩],
      [⟨1, "dishes", none, none, 1, 7, true⟩],
      [⟨1, 1, 7⟩, ⟨1, 2, 7⟩], []⟩ : DB).assignments
      = ([⟨1, 1, 7⟩, ⟨1, 2, 7⟩] : List Assignment) ∧
    (⟨[⟨1, "Home", "C", 0, some 1⟩], [⟨1, 1, 0, "admin"⟩],
      [⟨1, "dishes", none, none, 1, 7, true⟩],
      [⟨1, 1, 7⟩, ⟨1, 2, 7⟩], []⟩ : DB).assignments
      = ([⟨1, 1, 7⟩, ⟨1, 2, 7⟩] : List Assignment) := by
  have hS := c8_default_assignment_snapshot_and_frame
    ⟨[⟨1, "Home", "C", 0, some 1⟩],
     [⟨1, 1, 0, "admin"⟩, ⟨1, 2, 5, "member"⟩], [], [], []⟩
  have hT := c8_default_assignment_snapshot_and_frame
    ⟨[⟨1, "Home", "C", 0, some 1⟩],
     [⟨1, 1, 0, "admin"⟩, ⟨1, 2, 5, "member"⟩],
     [⟨1, "dishes", none, none, 1, 7, true⟩],
     [⟨1, 1, 7⟩, ⟨1, 2, 7⟩], []⟩
  have h1 := hS.1 1 ⟨"dishes", none, none, none⟩ 7 1
    ⟨[⟨1, "Home", "C", 0, some 1⟩],
     [⟨1, 1, 0, "admin"⟩, ⟨1, 2, 5, "member"⟩],
     [⟨1, "dishes", none, none, 1, 7, true⟩],
     [⟨1, 1, 7⟩, ⟨1, 2, 7⟩], []⟩ rfl (by simp) rfl
  have h2 := hT.2.1 "C" 3 9
    ⟨[⟨1, "Home", "C", 0, some 1⟩],
     [⟨1, 1, 0, "admin"⟩, ⟨1, 2, 5, "member"⟩, ⟨1, 3, 9, "member"⟩],
     [⟨1, "dishes", none, none, 1, 7, true⟩],
     [⟨1, 1, 7⟩, ⟨1, 2, 7⟩], []⟩ rfl
  have h3 := hT.2.2.1 1 2
    ⟨[⟨1, "Home", "C", 0, some 1⟩], [⟨1, 1, 0, "admin"⟩],
     [⟨1, "dishes", none, none, 1, 7, true⟩],
     [⟨1, 1, 7⟩, ⟨1, 2, 7⟩], []⟩ (by decide) rfl
  exact ⟨h1.1, h1.2, h2, h3⟩

/-- The primary-key WHERE clause holds exactly on rows with that key. -/
theorem byPair_eq_true_iff (gid uid : Nat) (m : Membership) :
    byPair gid uid m = true ↔ m.groupId = gid ∧ m.userId = uid := by
  simp [byPair]

/-- With the `(group_id, user_id)` primary key duplicate-free, the lookup
of a key held by a row in the table returns exactly that row. -/
theorem find?_pair_of_nodup (gid uid : Nat) (ms : List Membership)
    (lr : Membership) (hno : (ms.map pairKey).Nodup) (hlr : lr ∈ ms)
    (hkey : byPair gid uid lr = true) : ms.find? (byPair gid uid) = some lr := by
  cases hf : ms.find? (byPair gid uid) with
  | none => exact absurd hkey (by simpa using List.find?_eq_none.mp hf lr hlr)
  | some x =>
    have hxmem : x ∈ ms := List.mem_of_find?_eq_some hf
    have hxkey : byPair gid uid x = true := List.find?_some hf
    have hpk : pairKey x = pairKey lr := by
      obtain ⟨h1, h2⟩ := (byPair_eq_true_iff gid uid x).mp hxkey
      obtain ⟨h3, h4⟩ := (byPair_eq_true_iff gid uid lr).mp hkey
      simp [pairKey, h1, h2, h3, h4]
    have := List.inj_on_of_nodup_map hno hxmem hlr hpk
    rw [this]

/-- C3.  When the sole member of a group leaves — or equally removes
themselves through the admin-only removal endpoint — the member-count==1
check fires before any succession logic and the whole group is deleted by
cascade: the resulting state is literally `deleteGroupCascade` of the
original (no promotion applied), and it holds no group row, membership
row, task row, assignment row of the group's tasks, or completion row of
the group. -/
theorem c3_sole_member_leave_deletes_group_with_cascade
    (gid uid : Nat) (db : DB) (g : Group) (lr : Membership)
    (hno : (db.memberships.map pairKey).Nodup)
    (hg : g ∈ db.groups) (hgid : g.id = gid)
    (hlr : lr ∈ db.memberships) (hlrg : lr.groupId = gid) (hlru : lr.userId = uid)
    (hrole : lr.role = "admin") (hupos : 1 ≤ uid)
    (hcount : get_member_count gid db = 1)
    (hdenorm : ∀ c ∈ db.completions, c.groupId = gid →
      c.taskId ∈ groupTaskIds gid db) :
    leave_group gid uid db = .ok (deleteGroupCascade gid db) ∧
    remove_member gid uid uid db = .ok (deleteGroupCascade gid db) ∧
    (∀ g2 ∈ (deleteGroupCascade gid db).groups, g2.id ≠ gid) ∧
    (∀ m ∈ (deleteGroupCascade gid db).memberships, m.groupId ≠ gid) ∧
    (∀ t ∈ (deleteGroupCascade gid db).tasks, t.groupId ≠ gid) ∧
    (∀ a ∈ (deleteGroupCascade gid db).assignments,
      a.taskId ∉ groupTaskIds gid db) ∧
    (∀ c ∈ (deleteGroupCascade gid db).completions, c.groupId ≠ gid) := by
  have hkey : byPair gid uid lr = true :=
    (byPair_eq_true_iff gid uid lr).mpr ⟨hlrg, hlru⟩
  have hfg : ∃ g', db.groups.find? (fun g => g.id == gid) = some g' := by
    cases hf : db.groups.find? (fun g => g.id == gid) with
    | none =>
      have := List.find?_eq_none.mp hf g hg
      simp [hgid] at this
    | some g' => exact ⟨g', rfl⟩
  obtain ⟨g', hfg⟩ := hfg
  have hfm : db.memberships.find? (byPair gid uid) = some lr :=
    find?_pair_of_nodup gid uid db.memberships lr hno hlr hkey
  have hv : verify_group_membership gid uid db = .ok g' := by
    simp only [verify_group_membership, hfg, hfm]
  have hcb : (get_member_count gid db == 1) = true := by
    simp [hcount]
  refine ⟨?_, ?_, ?_, ?_, ?_, ?_, ?_⟩
  · simp only [leave_group, hv, hcb, if_true]
  · have hrolev : getRole gid uid db = some "admin" := by
      simp only [getRole, hfm, Option.map_some', hrole]
    have huz : (lr.userId == 0) = false := by
      have : lr.userId ≠ 0 := by omega
      simpa using this
    simp only [remove_member, hv, hrolev, hfm, huz, beq_self_eq_true, hcb]
    simp
  · intro g2 hg2
    have := List.of_mem_filter hg2
    simpa using this
  · intro m hm
    have := List.of_mem_filter hm
    simpa using this
  · intro t ht
    have := List.of_mem_filter ht
    simpa using this
  · intro a ha
    have := List.of_mem_filter ha
    simpa using this
  · intro c hc
    intro hcg
    have hold : c ∈ db.completions := List.mem_of_mem_filter hc
    have hfilter := List.of_mem_filter hc
    have : c.taskId ∈ groupTaskIds gid db := hdenorm c hold hcg
    simp [this] at hfilter

/-- Witness for C3 at a concrete store: the sole member-admin 1 of group 1
(owning a task, an assignment row and a completion row) leaves — or
removes themselves — and the whole database empties; no orphan rows
remain. -/
theorem c3_witness :
    leave_group 1 1
      ⟨[⟨1, "Home", "C", 0, some 1⟩], [⟨1, 1, 0, "admin"⟩],
       [⟨1, "dishes", none, none, 1, 7, true⟩], [⟨1, 1, 7⟩], [⟨1, 1, 1, 1, 8⟩]⟩
      = .ok ⟨[], [], [], [], []⟩ ∧
    remove_member 1 1 1
      ⟨[⟨1, "Home", "C", 0, some 1⟩], [⟨1, 1, 0, "admin"⟩],
       [⟨1, "dishes", none, none, 1, 7, true⟩], [⟨1, 1, 7⟩], [⟨1, 1, 1, 1, 8⟩]⟩
      = .ok ⟨[], [], [], [], []⟩ := by
  have h := c3_sole_member_leave_deletes_group_with_cascade 1 1
    ⟨[⟨1, "Home", "C", 0, some 1⟩], [⟨1, 1, 0, "admin"⟩],
     [⟨1, "dishes", none, none, 1, 7, true⟩], [⟨1, 1, 7⟩], [⟨1, 1, 1, 1, 8⟩]⟩
    ⟨1, "Home", "C", 0, some 1⟩ ⟨1, 1, 0, "admin"⟩
    (by decide) (by decide) rfl (by decide) rfl rfl rfl (by decide) rfl
    (by decide)
  exact ⟨h.1, h.2.1⟩

/-- The running minimum of the succession fold is one of the rows. -/
theorem foldl_oldest_mem (rs : List Membership) :
    ∀ r : Membership,
      rs.foldl (fun best m => if m.joinedAt < best.joinedAt then m else best) r
        ∈ r :: rs := by
  induction rs with
  | nil => intro r; simp
  | cons a as ih =>
    intro r
    rw [List.foldl_cons]
    rcases List.mem_cons.mp (ih (if a.joinedAt < r.joinedAt then a else r))
      with he | hm
    · rw [he]
      by_cases hlt : a.joinedAt < r.joinedAt
      · rw [if_pos hlt]
        exact List.mem_cons_of_mem _ (List.mem_cons_self _ _)
      · rw [if_neg hlt]
        exact List.mem_cons_self _ _
    · exact List.mem_cons_of_mem _ (List.mem_cons_of_mem _ hm)

/-- The running minimum of the succession fold has the minimal
`joined_at` among the rows. -/
theorem foldl_oldest_le (rs : List Membership) :
    ∀ r x : Membership, x ∈ r :: rs →
      (rs.foldl (fun best m => if m.joinedAt < best.joinedAt then m else best)
        r).joinedAt ≤ x.joinedAt := by
  induction rs with
  | nil =>
    intro r x hx
    rcases List.mem_cons.mp hx with rfl | hx
    · exact le_refl _
    · cases hx
  | cons a as ih =>
    intro r x hx
    rw [List.foldl_cons]
    have hhead : ((as.foldl
        (fun best m => if m.joinedAt < best.joinedAt then m else best)
        (if a.joinedAt < r.joinedAt then a else r)).joinedAt : Nat)
        ≤ (if a.joinedAt < r.joinedAt then a else r).joinedAt :=
      ih _ _ (List.mem_cons_self _ _)
    rcases List.mem_cons.mp hx with rfl | hx2
    · refine le_trans hhead ?_
      by_cases hlt : a.joinedAt < x.joinedAt
      · rw [if_pos hlt]; omega
      · rw [if_neg hlt]
    rcases List.mem_cons.mp hx2 with rfl | hx3
    · refine le_trans hhead ?_
      by_cases hlt : x.joinedAt < r.joinedAt
      · rw [if_pos hlt]
      · rw [if_neg hlt]; omega
    · exact ih _ x (List.mem_cons_of_mem _ hx3)

/-- When a single remaining member strictly minimizes `joined_at`, the
succession query returns exactly that member's row. -/
theorem oldestRowExcluding_of_strict_min (gid ex : Nat) (ms : List Membership)
    (mo : Membership) (hm : mo ∈ ms) (hmg : mo.groupId = gid)
    (hmu : mo.userId ≠ ex)
    (hstrict : ∀ m' ∈ ms, m'.groupId = gid → m'.userId ≠ ex → m' ≠ mo →
      mo.joinedAt < m'.joinedAt) :
    oldestRowExcluding gid ex ms = some mo := by
  have hmf : mo ∈ ms.filter (fun x => x.groupId == gid && x.userId != ex) :=
    List.mem_filter.mpr ⟨hm, by simp [hmg, hmu]⟩
  unfold oldestRowExcluding
  cases hfl : ms.filter (fun x => x.groupId == gid && x.userId != ex) with
  | nil => rw [hfl] at hmf; cases hmf
  | cons r rs =>
    rw [hfl] at hmf
    have hresmem := foldl_oldest_mem rs r
    have hresle := foldl_oldest_le rs r mo hmf
    have hresf : (rs.foldl
        (fun best m => if m.joinedAt < best.joinedAt then m else best) r)
        ∈ ms.filter (fun x => x.groupId == gid && x.userId != ex) := by
      rw [hfl]; exact hresmem
    obtain ⟨hresms, hrespred⟩ := List.mem_filter.mp hresf
    simp only [Bool.and_eq_true, beq_iff_eq, bne_iff_ne, ne_eq] at hrespred
    by_cases he : (rs.foldl
        (fun best m => if m.joinedAt < best.joinedAt then m else best) r) = mo
    · exact congrArg some he
    · exfalso
      have := hstrict _ hresms hrespred.1 hrespred.2 he
      omega

/-- With the primary key duplicate-free, the rows matching one key form
exactly the singleton of the row holding it. -/
theorem filter_pair_of_nodup (gid uid : Nat) (ms : List Membership)
    (lr : Membership) (hno : (ms.map pairKey).Nodup) (hlr : lr ∈ ms)
    (hkey : byPair gid uid lr = true) : ms.filter (byPair gid uid) = [lr] := by
  induction ms with
  | nil => cases hlr
  | cons a as ih =>
    rw [List.map_cons, List.nodup_cons] at hno
    rcases List.mem_cons.mp hlr with rfl | hmem
    · rw [List.filter_cons_of_pos hkey]
      have hnil : as.filter (byPair gid uid) = [] := by
        rw [List.filter_eq_nil_iff]
        intro b hb hpb
        have hbk : pairKey b = pairKey lr := by
          obtain ⟨h1, h2⟩ := (byPair_eq_true_iff gid uid b).mp hpb
          obtain ⟨h3, h4⟩ := (byPair_eq_true_iff gid uid lr).mp hkey
          simp [pairKey, h1, h2, h3, h4]
        exact hno.1 (by rw [← hbk]; exact List.mem_map_of_mem _ hb)
      rw [hnil]
    · have hane : ¬ (byPair gid uid a = true) := by
        intro hpa
        have hak : pairKey lr = pairKey a := by
          obtain ⟨h1, h2⟩ := (byPair_eq_true_iff gid uid lr).mp hkey
          obtain ⟨h3, h4⟩ := (byPair_eq_true_iff gid uid a).mp hpa
          simp [pairKey, h1, h2, h3, h4]
        exact hno.1 (by rw [← hak]; exact List.mem_map_of_mem _ hmem)
      rw [List.filter_cons_of_neg hane]
      exact ih hno.2 hmem

/-- `promoteRole` never changes a row's key or join time. -/
theorem promoteRole_key (gid u : Nat) (m : Membership) :
    (promoteRole gid u m).groupId = m.groupId ∧
    (promoteRole gid u m).userId = m.userId ∧
    (promoteRole gid u m).joinedAt = m.joinedAt := by
  unfold promoteRole
  split <;> exact ⟨rfl, rfl, rfl⟩

/-- Two distinct members force a list length of at least two. -/
theorem two_mem_length_ge_two {l : List Membership} {x y : Membership}
    (hx : x ∈ l) (hy : y ∈ l) (hne : x ≠ y) : 2 ≤ l.length := by
  cases l with
  | nil => cases hx
  | cons a as =>
    cases as with
    | nil =>
      have hx' := List.mem_singleton.mp hx
      have hy' := List.mem_singleton.mp hy
      exact absurd (hx'.trans hy'.symm) hne
    | cons b bs =>
      simp only [List.length_cons]
      omega

/-- C2.  When the admin `uid` of a group with a second member departs —
through `leave_group`, or equally by removing themselves through
`remove_member`'s self-removal branch — and `mo` is the remaining member
with the (strictly unique) smallest `joined_at`, the one committed
transaction promotes `mo`: afterwards `mo`'s row carries `role="admin"`,
the group row's `created_by` points at `mo`, the departing admin's
membership row is gone, and the member count has dropped by exactly one.
Both endpoints commit the very same state; the self-removal equation
additionally needs the real user id to be positive, because
`remove_member`'s Python `if not target_membership` treats id 0 like an
absent row. -/
theorem c2_admin_leave_promotes_oldest_member (gid uid : Nat) (db : DB)
    (g : Group) (lr mo : Membership)
    (hno : (db.memberships.map pairKey).Nodup)
    (hg : g ∈ db.groups) (hgid : g.id = gid)
    (hlr : lr ∈ db.memberships) (hlrg : lr.groupId = gid)
    (hlru : lr.userId = uid) (hrole : lr.role = "admin")
    (hmo : mo ∈ db.memberships) (hmog : mo.groupId = gid)
    (hmou : mo.userId ≠ uid) (hmopos : 1 ≤ mo.userId)
    (hstrict : ∀ m' ∈ db.memberships, m'.groupId = gid → m'.userId ≠ uid →
      m' ≠ mo → mo.joinedAt < m'.joinedAt) :
    ∃ db', leave_group gid uid db = .ok db' ∧
      (1 ≤ uid → remove_member gid uid uid db = .ok db') ∧
      { mo with role := "admin" } ∈ db'.memberships ∧
      (∀ g2 ∈ db'.groups, g2.id = gid → g2.createdBy = some mo.userId) ∧
      get_member_count gid db' = get_member_count gid db - 1 ∧
      (∀ m2 ∈ db'.memberships, ¬(m2.groupId = gid ∧ m2.userId = uid)) := by
  have hkey : byPair gid uid lr = true :=
    (byPair_eq_true_iff gid uid lr).mpr ⟨hlrg, hlru⟩
  obtain ⟨g', hfg⟩ : ∃ g', db.groups.find? (fun g => g.id == gid) = some g' := by
    cases hf : db.groups.find? (fun g => g.id == gid) with
    | none =>
      have := List.find?_eq_none.mp hf g hg
      simp [hgid] at this
    | some g' => exact ⟨g', rfl⟩
  have hfm : db.memberships.find? (byPair gid uid) = some lr :=
    find?_pair_of_nodup gid uid db.memberships lr hno hlr hkey
  have hv : verify_group_membership gid uid db = .ok g' := by
    simp only [verify_group_membership, hfg, hfm]
  have hlf : lr ∈ db.memberships.filter (byGroup gid) :=
    List.mem_filter.mpr ⟨hlr, by simp [byGroup, hlrg]⟩
  have hmf : mo ∈ db.memberships.filter (byGroup gid) :=
    List.mem_filter.mpr ⟨hmo, by simp [byGroup, hmog]⟩
  have hlmne : lr ≠ mo := by
    intro hcon
    rw [hcon] at hlru
    exact hmou hlru
  have hcount2 : 2 ≤ get_member_count gid db :=
    two_mem_length_ge_two hlf hmf hlmne
  have hcb : (get_member_count gid db == 1) = false :=
    beq_eq_false_iff_ne.mpr (by omega)
  have hrolev : getRole gid uid db = some "admin" := by
    simp only [getRole, hfm, Option.map_some', hrole]
  have holdq : oldestRowExcluding gid uid db.memberships = some mo :=
    oldestRowExcluding_of_strict_min gid uid db.memberships mo hmo hmog hmou
      hstrict
  have hmz : (mo.userId == 0) = false :=
    beq_eq_false_iff_ne.mpr (by omega)
  have hpro : promote_oldest_member gid uid db =
      ({ db with memberships := db.memberships.map (promoteRole gid mo.userId),
                 groups := db.groups.map (setCreator gid mo.userId) },
       some mo.userId) := by
    simp only [promote_oldest_member, holdq, Option.map_some', hmz,
      Bool.false_eq_true, if_false]
  have hleq : leave_group gid uid db = .ok (removeMembershipRow gid uid
      { db with memberships := db.memberships.map (promoteRole gid mo.userId),
                groups := db.groups.map (setCreator gid mo.userId) }) := by
    simp only [leave_group, hv, hcb, Bool.false_eq_true, if_false, hrolev,
      beq_self_eq_true, if_true, hpro]
  refine ⟨_, hleq, ?_, ?_, ?_, ?_, ?_⟩
  · -- the self-removal branch of remove_member commits the same state
    intro hupos
    have hbne : (getRole gid uid db != some "admin") = false := by
      simp [hrolev]
    have huz : (lr.userId == 0) = false := by
      rw [hlru]
      exact beq_eq_false_iff_ne.mpr (by omega)
    simp only [remove_member, hv, hbne, Bool.false_eq_true, if_false, hfm,
      huz, beq_self_eq_true, if_true, hcb, hpro]
  · -- the promoted row is in the final table
    have hpm : promoteRole gid mo.userId mo = { mo with role := "admin" } := by
      unfold promoteRole
      rw [if_pos ((byPair_eq_true_iff gid mo.userId mo).mpr ⟨hmog, rfl⟩)]
    refine List.mem_filter.mpr ⟨?_, ?_⟩
    · rw [← hpm]
      exact List.mem_map_of_mem _ hmo
    · simp [byPair, hmou]
  · -- the group row points at the new admin
    intro g2 hg2 hgeq
    obtain ⟨g0, hg0, rfl⟩ := List.mem_map.mp hg2
    cases h0 : (g0.id == gid) with
    | true => simp [setCreator, h0]
    | false =>
      simp only [setCreator, h0, Bool.false_eq_true, if_false] at hgeq
      simp [hgeq] at h0
  · -- member count dropped by one
    have e1 : get_member_count gid (removeMembershipRow gid uid
        { db with memberships := db.memberships.map (promoteRole gid mo.userId),
                  groups := db.groups.map (setCreator gid mo.userId) })
        = db.memberships.countP
            (fun x => byGroup gid x && !(byPair gid uid x)) := by
      show ((((db.memberships.map (promoteRole gid mo.userId)).filter
        (fun m => !(byPair gid uid m))).filter (byGroup gid)).length : Nat) = _
      rw [← List.countP_eq_length_filter, List.countP_filter, List.countP_map]
      exact List.countP_congr (fun x _ => by
        unfold Function.comp promoteRole
        split
        · next hx =>
          obtain ⟨hx1, hx2⟩ := (byPair_eq_true_iff gid mo.userId x).mp hx
          simp [byGroup, byPair, hx1, hx2, hmou]
        · rfl)
    have hpartition := List.length_eq_countP_add_countP (byPair gid uid)
      (db.memberships.filter (byGroup gid))
    have e2 : (db.memberships.filter (byGroup gid)).countP (byPair gid uid)
        = 1 := by
      rw [List.countP_filter]
      have : db.memberships.countP (fun a => byPair gid uid a && byGroup gid a)
          = db.memberships.countP (byPair gid uid) :=
        List.countP_congr (fun x _ => by
          constructor
          · intro hx
            exact (Bool.and_eq_true _ _).mp hx |>.1
          · intro hx
            obtain ⟨h1, h2⟩ := (byPair_eq_true_iff gid uid x).mp hx
            simp [byPair, byGroup, h1, h2])
      rw [this, List.countP_eq_length_filter,
        filter_pair_of_nodup gid uid db.memberships lr hno hlr hkey]
      rfl
    have e3 : (db.memberships.filter (byGroup gid)).countP
        (fun a => decide ¬(byPair gid uid a = true))
        = db.memberships.countP (fun x => byGroup gid x && !(byPair gid uid x)) := by
      rw [List.countP_filter]
      exact List.countP_congr (fun x _ => by
        cases hp : byPair gid uid x <;> cases hgp : byGroup gid x <;> simp [hp, hgp])
    rw [e1, ← e3]
    have : get_member_count gid db
        = (db.memberships.filter (byGroup gid)).length := rfl
    omega
  · -- the leaver's row is gone
    intro m2 hm2 hcon
    have := (List.mem_filter.mp hm2).2
    simp only [Bool.not_eq_eq_eq_not, Bool.not_true] at this
    exact absurd ((byPair_eq_true_iff gid uid m2).mpr hcon)
      (by simp [this])

/-- Witness for C2 at a concrete store: admin 1 leaves a three-member
group; member 2 (joined at 5, before member 3 at 9) is promoted, the group
row now names user 2 as creator, the leaver's row is gone and the count
dropped from 3 to 2. -/
theorem c2_witness :
    ∃ db', leave_group 1 1
        ⟨[⟨1, "Home", "C", 0, some 1⟩],
         [⟨1, 1, 0, "admin"⟩, ⟨1, 2, 5, "member"⟩, ⟨1, 3, 9, "member"⟩],
         [], [], []⟩ = .ok db' ∧
      remove_member 1 1 1
        ⟨[⟨1, "Home", "C", 0, some 1⟩],
         [⟨1, 1, 0, "admin"⟩, ⟨1, 2, 5, "member"⟩, ⟨1, 3, 9, "member"⟩],
         [], [], []⟩ = .ok db' ∧
      (⟨1, 2, 5, "admin"⟩ : Membership) ∈ db'.memberships ∧
      (∀ g2 ∈ db'.groups, g2.id = 1 → g2.createdBy = some 2) ∧
      get_member_count 1 db' = get_member_count 1
        ⟨[⟨1, "Home", "C", 0, some 1⟩],
         [⟨1, 1, 0, "admin"⟩, ⟨1, 2, 5, "member"⟩, ⟨1, 3, 9, "member"⟩],
         [], [], []⟩ - 1 ∧
      (∀ m2 ∈ db'.memberships, ¬(m2.groupId = 1 ∧ m2.userId = 1)) := by
  obtain ⟨db', h1, h6, h2, h3, h4, h5⟩ :=
    c2_admin_leave_promotes_oldest_member 1 1
      ⟨[⟨1, "Home", "C", 0, some 1⟩],
       [⟨1, 1, 0, "admin"⟩, ⟨1, 2, 5, "member"⟩, ⟨1, 3, 9, "member"⟩],
       [], [], []⟩
      ⟨1, "Home", "C", 0, some 1⟩ ⟨1, 1, 0, "admin"⟩ ⟨1, 2, 5, "member"⟩
      (by decide) (by decide) rfl (by decide) rfl rfl rfl (by decide) rfl
      (by decide) (by decide) (by decide)
  exact ⟨db', h1, h6 (by decide), h2, h3, h4, h5⟩

/-- `promoteRole` never changes a row's primary key. -/
theorem pairKey_promoteRole (gid u : Nat) (m : Membership) :
    pairKey (promoteRole gid u m) = pairKey m := by
  unfold promoteRole pairKey
  split <;> rfl

/-- The promotion UPDATE leaves the primary-key column ordering of the
whole table unchanged. -/
theorem map_pairKey_promote (gid u : Nat) (ms : List Membership) :
    (ms.map (promoteRole gid u)).map pairKey = ms.map pairKey := by
  rw [List.map_map]
  exact List.map_congr_left (fun m _ => pairKey_promoteRole gid u m)

/-- `setCreator` never changes a group's id. -/
theorem setCreator_id (gid u : Nat) (g : Group) :
    (setCreator gid u g).id = g.id := by
  unfold setCreator
  split <;> rfl

/-- A fresh autoincrement group id is strictly larger than every existing
group id. -/
theorem lt_freshGroupId (db : DB) : ∀ g ∈ db.groups, g.id < freshGroupId db := by
  intro g hg
  have := le_foldr_max (db.groups.map (fun g => g.id)) g.id
    (List.mem_map_of_mem _ hg)
  unfold freshGroupId
  omega

/-- A duplicate-free list whose elements all coincide has at most one
element. -/
theorem all_eq_length_le_one {l : List Membership} (h : l.Nodup)
    {c : Membership} (hall : ∀ x ∈ l, x = c) : l.length ≤ 1 := by
  cases l with
  | nil => simp
  | cons a as =>
    cases as with
    | nil => simp
    | cons b bs =>
      have ha := hall a (by simp)
      have hb := hall b (by simp)
      rw [List.nodup_cons] at h
      exact absurd (by rw [ha, hb.symm]; exact List.mem_cons_self b bs) h.1

/-- When remaining members exist, the succession query returns one of
them. -/
theorem oldestRowExcluding_mem (gid ex : Nat) (ms : List Membership)
    (hne : ms.filter (fun m => m.groupId == gid && m.userId != ex) ≠ []) :
    ∃ r0, oldestRowExcluding gid ex ms = some r0 ∧
      r0 ∈ ms.filter (fun m => m.groupId == gid && m.userId != ex) := by
  unfold oldestRowExcluding
  cases hfl : ms.filter (fun m => m.groupId == gid && m.userId != ex) with
  | nil => exact absurd hfl hne
  | cons r rs =>
    exact ⟨_, rfl, foldl_oldest_mem rs r⟩

/-- The membership table after admin succession (promotion of `r0`)
followed by deletion of the leaving admin `lr`'s row is, up to
permutation, the promoted row together with the untouched remainder; the
original table is, up to the same permutation, `lr`, `r0` and that
remainder. -/
theorem promote_delete_perm (gid uid : Nat) (ms : List Membership)
    (lr r0 : Membership) (hno : (ms.map pairKey).Nodup)
    (hlr : lr ∈ ms) (hlrg : lr.groupId = gid) (hlru : lr.userId = uid)
    (hr0 : r0 ∈ ms) (hr0g : r0.groupId = gid) (hr0u : r0.userId ≠ uid) :
    ∃ rest, ms.Perm (lr :: r0 :: rest) ∧
      ((ms.map (promoteRole gid r0.userId)).filter
        (fun m => !(byPair gid uid m))).Perm
        ({ r0 with role := "admin" } :: rest) := by
  have hmsnd : ms.Nodup := List.Nodup.of_map pairKey hno
  have hlrne : lr ≠ r0 := by
    intro h
    exact hr0u (by rw [← h, hlru])
  have p1 : ms.Perm (lr :: ms.erase lr) := List.perm_cons_erase hlr
  have hr0e : r0 ∈ ms.erase lr :=
    (List.mem_erase_of_ne (fun h => hlrne h.symm)).mpr hr0
  have p2 : (ms.erase lr).Perm (r0 :: (ms.erase lr).erase r0) :=
    List.perm_cons_erase hr0e
  refine ⟨(ms.erase lr).erase r0, p1.trans (p2.cons lr), ?_⟩
  have hrest_ms : ∀ x ∈ (ms.erase lr).erase r0, x ∈ ms :=
    fun x hx => List.mem_of_mem_erase (List.mem_of_mem_erase hx)
  have hrest_ne_lr : ∀ x ∈ (ms.erase lr).erase r0, x ≠ lr := by
    intro x hx
    exact ((List.Nodup.mem_erase_iff hmsnd).mp (List.mem_of_mem_erase hx)).1
  have hrest_ne_r0 : ∀ x ∈ (ms.erase lr).erase r0, x ≠ r0 := by
    intro x hx
    exact ((List.Nodup.mem_erase_iff (hmsnd.erase lr)).mp hx).1
  have hperm2 := ((p1.trans (p2.cons lr)).map
    (promoteRole gid r0.userId)).filter (fun m => !(byPair gid uid m))
  refine hperm2.trans ?_
  have hpf_lr : promoteRole gid r0.userId lr = lr := by
    unfold promoteRole
    rw [if_neg]
    intro h
    obtain ⟨-, h2⟩ := (byPair_eq_true_iff gid r0.userId lr).mp h
    exact hr0u (by rw [← h2, hlru])
  have hpf_r0 : promoteRole gid r0.userId r0 = { r0 with role := "admin" } := by
    unfold promoteRole
    rw [if_pos ((byPair_eq_true_iff gid r0.userId r0).mpr ⟨hr0g, rfl⟩)]
  have hpf_rest : ((ms.erase lr).erase r0).map (promoteRole gid r0.userId)
      = (ms.erase lr).erase r0 := by
    refine (List.map_congr_left (fun x hx => ?_)).trans
      (List.map_id ((ms.erase lr).erase r0))
    show promoteRole gid r0.userId x = x
    unfold promoteRole
    rw [if_neg]
    intro h
    obtain ⟨h1, h2⟩ := (byPair_eq_true_iff gid r0.userId x).mp h
    refine hrest_ne_r0 x hx ?_
    refine List.inj_on_of_nodup_map hno (hrest_ms x hx) hr0 ?_
    simp [pairKey, h1, h2, hr0g]
  rw [List.map_cons, List.map_cons, hpf_lr, hpf_r0, hpf_rest]
  rw [List.filter_cons_of_neg (by
    have : byPair gid uid lr = true := (byPair_eq_true_iff gid uid lr).mpr ⟨hlrg, hlru⟩
    simp [this])]
  rw [List.filter_cons_of_pos (by
    have : byPair gid uid { r0 with role := "admin" } = false := by
      have : ¬(r0.groupId = gid ∧ r0.userId = uid) := fun h => hr0u h.2
      cases hb : byPair gid uid { r0 with role := "admin" }
      · rfl
      · exact absurd ((byPair_eq_true_iff gid uid _).mp hb) this
    simp [this])]
  rw [List.filter_eq_self.mpr (by
    intro x hx
    have : byPair gid uid x = false := by
      cases hb : byPair gid uid x
      · rfl
      · obtain ⟨h1, h2⟩ := (byPair_eq_true_iff gid uid x).mp hb
        refine absurd (List.inj_on_of_nodup_map hno (hrest_ms x hx) hlr ?_)
          (hrest_ne_lr x hx)
        simp [pairKey, h1, h2, hlrg, hlru]
    simp [this])]

/-- The admin predicate holds exactly on the group's `role="admin"`
rows. -/
theorem byAdmin_eq_true_iff (gid : Nat) (m : Membership) :
    byAdmin gid m = true ↔ m.groupId = gid ∧ m.role = "admin" := by
  simp [byAdmin]

/-- Invariant preservation along the succession path shared by
`leave_group` and `remove_member`: the departing user holds the admin row
of a group with other members; promoting the succession choice and then
deleting the admin's row keeps the store well-formed with exactly one
admin row per group. -/
theorem inv_promote_delete (gid uid : Nat) (db : DB) (lr : Membership)
    (hInv : Inv db)
    (hfm : db.memberships.find? (byPair gid uid) = some lr)
    (hrole : lr.role = "admin")
    (hcount : get_member_count gid db ≠ 1)
    (hg : ∃ g ∈ db.groups, g.id = gid) :
    Inv (removeMembershipRow gid uid (promote_oldest_member gid uid db).1) := by
  obtain ⟨⟨hno, hpos, hroles, hrefs, hgids⟩, hadmin⟩ := hInv
  obtain ⟨g0, hg0, hg0id⟩ := hg
  have hlr : lr ∈ db.memberships := List.mem_of_find?_eq_some hfm
  obtain ⟨hlrg, hlru⟩ := (byPair_eq_true_iff gid uid lr).mp (List.find?_some hfm)
  have hmsnd : db.memberships.Nodup := List.Nodup.of_map pairKey hno
  -- the group has another member, so the succession query succeeds
  have hlf : lr ∈ db.memberships.filter (byGroup gid) :=
    List.mem_filter.mpr ⟨hlr, by simp [byGroup, hlrg]⟩
  have hrows : db.memberships.filter
      (fun m => m.groupId == gid && m.userId != uid) ≠ [] := by
    intro hrows0
    have hallrow : ∀ m ∈ db.memberships, m.groupId = gid → m.userId = uid := by
      intro m hm hmg
      have := List.filter_eq_nil_iff.mp hrows0 m hm
      simpa [hmg] using this
    have hall : ∀ x ∈ db.memberships.filter (byGroup gid), x = lr := by
      intro x hx
      obtain ⟨hxm, hxg⟩ := List.mem_filter.mp hx
      have hxg' : x.groupId = gid := by simpa [byGroup] using hxg
      refine List.inj_on_of_nodup_map hno hxm hlr ?_
      simp [pairKey, hxg', hallrow x hxm hxg', hlrg, hlru]
    have hle := all_eq_length_le_one (hmsnd.filter _) hall
    have hge : 1 ≤ (db.memberships.filter (byGroup gid)).length :=
      List.length_pos.mpr (List.ne_nil_of_mem hlf)
    have : get_member_count gid db
        = (db.memberships.filter (byGroup gid)).length := rfl
    omega
  obtain ⟨r0, holdq, hr0f⟩ :=
    oldestRowExcluding_mem gid uid db.memberships hrows
  obtain ⟨hr0ms, hr0pred⟩ := List.mem_filter.mp hr0f
  have hr0g : r0.groupId = gid := by
    have := hr0pred
    simp only [Bool.and_eq_true, beq_iff_eq, bne_iff_ne, ne_eq] at this
    exact this.1
  have hr0u : r0.userId ≠ uid := by
    have := hr0pred
    simp only [Bool.and_eq_true, beq_iff_eq, bne_iff_ne, ne_eq] at this
    exact this.2
  have hr0pos : 1 ≤ r0.userId := hpos r0 hr0ms
  have hmz : (r0.userId == 0) = false := beq_eq_false_iff_ne.mpr (by omega)
  have hpro : (promote_oldest_member gid uid db).1 =
      { db with memberships := db.memberships.map (promoteRole gid r0.userId),
                groups := db.groups.map (setCreator gid r0.userId) } := by
    simp only [promote_oldest_member, holdq, Option.map_some', hmz,
      Bool.false_eq_true, if_false]
  -- the promoted row was not an admin row
  have hr0role : r0.role ≠ "admin" := by
    intro hadm
    have h1 : lr ∈ db.memberships.filter (byAdmin gid) :=
      List.mem_filter.mpr ⟨hlr, by simp [byAdmin, hlrg, hrole]⟩
    have h2 : r0 ∈ db.memberships.filter (byAdmin gid) :=
      List.mem_filter.mpr ⟨hr0ms, by simp [byAdmin, hr0g, hadm]⟩
    have hne : lr ≠ r0 := by
      intro h
      exact hr0u (by rw [← h, hlru])
    have := two_mem_length_ge_two h1 h2 hne
    have h1' := hadmin g0 hg0
    rw [hg0id] at h1'
    have : (adminRows gid db).length
        = (db.memberships.filter (byAdmin gid)).length := rfl
    omega
  obtain ⟨rest, pm, pm'⟩ := promote_delete_perm gid uid db.memberships lr r0
    hno hlr hlrg hlru hr0ms hr0g hr0u
  rw [hpro]
  show Inv { groups := db.groups.map (setCreator gid r0.userId),
             memberships := (db.memberships.map (promoteRole gid r0.userId)).filter
               (fun m => !(byPair gid uid m)),
             tasks := db.tasks, assignments := db.assignments,
             completions := db.completions }
  refine ⟨⟨?_, ?_, ?_, ?_, ?_⟩, ?_⟩
  · -- primary key still duplicate-free
    have hsub : List.Sublist
        (((db.memberships.map (promoteRole gid r0.userId)).filter
          (fun m => !(byPair gid uid m))).map pairKey)
        ((db.memberships.map (promoteRole gid r0.userId)).map pairKey) :=
      (List.filter_sublist _).map pairKey
    rw [map_pairKey_promote] at hsub
    exact List.Nodup.sublist hsub hno
  · -- user ids still positive
    intro m hm
    obtain ⟨m0, hm0, rfl⟩ := List.mem_map.mp (List.mem_of_mem_filter hm)
    have := (promoteRole_key gid r0.userId m0).2.1
    rw [this]
    exact hpos m0 hm0
  · -- roles still well-formed
    intro m hm
    obtain ⟨m0, hm0, rfl⟩ := List.mem_map.mp (List.mem_of_mem_filter hm)
    unfold promoteRole
    split
    · exact Or.inl rfl
    · exact hroles m0 hm0
  · -- membership rows still reference existing groups
    intro m hm
    obtain ⟨m0, hm0, rfl⟩ := List.mem_map.mp (List.mem_of_mem_filter hm)
    obtain ⟨gg, hgg, hggid⟩ := hrefs m0 hm0
    refine ⟨setCreator gid r0.userId gg, List.mem_map_of_mem _ hgg, ?_⟩
    rw [setCreator_id, hggid, (promoteRole_key gid r0.userId m0).1]
  · -- group ids still duplicate-free
    have : (db.groups.map (setCreator gid r0.userId)).map (fun g => g.id)
        = db.groups.map (fun g => g.id) := by
      rw [List.map_map]
      exact List.map_congr_left (fun g _ => setCreator_id gid r0.userId g)
    rw [this]
    exact hgids
  · -- exactly one admin row per group
    intro g2 hg2
    obtain ⟨g1, hg1, rfl⟩ := List.mem_map.mp hg2
    have hcnt_old : (db.memberships.filter (byAdmin g1.id)).length = 1 := by
      have := hadmin g1 hg1
      exact this
    show (((db.memberships.map (promoteRole gid r0.userId)).filter
        (fun m => !(byPair gid uid m))).filter
          (byAdmin (setCreator gid r0.userId g1).id)).length = 1
    rw [setCreator_id]
    rw [← List.countP_eq_length_filter] at hcnt_old ⊢
    rw [pm'.countP_eq, pm.countP_eq] at *
    rw [List.countP_cons, List.countP_cons] at hcnt_old
    rw [List.countP_cons]
    by_cases hgeq : g1.id = gid
    · subst hgeq
      have hbl : byAdmin g1.id lr = true :=
        (byAdmin_eq_true_iff g1.id lr).mpr ⟨hlrg, hrole⟩
      have hbr : byAdmin g1.id r0 = false := by
        cases hb : byAdmin g1.id r0
        · rfl
        · exact absurd ((byAdmin_eq_true_iff g1.id r0).mp hb).2 hr0role
      have hbr' : byAdmin g1.id { r0 with role := "admin" } = true :=
        (byAdmin_eq_true_iff g1.id _).mpr ⟨hr0g, rfl⟩
      rw [hbl, hbr] at hcnt_old
      rw [hbr']
      simp only [Bool.false_eq_true, if_false, if_true] at hcnt_old ⊢
      omega
    · have hbl : byAdmin g1.id lr = false := by
        cases hb : byAdmin g1.id lr
        · rfl
        · have h1 := ((byAdmin_eq_true_iff g1.id lr).mp hb).1
          exact absurd (h1.symm.trans hlrg) hgeq
      have hbr : byAdmin g1.id r0 = false := by
        cases hb : byAdmin g1.id r0
        · rfl
        · have h1 := ((byAdmin_eq_true_iff g1.id r0).mp hb).1
          exact absurd (h1.symm.trans hr0g) hgeq
      have hbr' : byAdmin g1.id { r0 with role := "admin" } = false := by
        cases hb : byAdmin g1.id { r0 with role := "admin" }
        · rfl
        · have h1 := ((byAdmin_eq_true_iff g1.id _).mp hb).1
          have h1' : r0.groupId = g1.id := h1
          exact absurd (h1'.symm.trans hr0g) hgeq
      rw [hbl, hbr] at hcnt_old
      rw [hbr']
      simp only [Bool.false_eq_true, if_false] at hcnt_old ⊢
      omega

/-- Deleting a whole group by cascade preserves the invariant: the
surviving groups keep their membership rows untouched. -/
theorem inv_cascade (gid : Nat) (db : DB) (hInv : Inv db) :
    Inv (deleteGroupCascade gid db) := by
  obtain ⟨⟨hno, hpos, hroles, hrefs, hgids⟩, hadmin⟩ := hInv
  refine ⟨⟨?_, ?_, ?_, ?_, ?_⟩, ?_⟩
  · exact List.Nodup.sublist ((List.filter_sublist _).map pairKey) hno
  · intro m hm
    exact hpos m (List.mem_of_mem_filter hm)
  · intro m hm
    exact hroles m (List.mem_of_mem_filter hm)
  · intro m hm
    have hm1 : m ∈ db.memberships.filter (fun m => m.groupId != gid) := hm
    have hm0 : m ∈ db.memberships := List.mem_of_mem_filter hm1
    have hmne : (m.groupId != gid) = true := (List.mem_filter.mp hm1).2
    obtain ⟨g, hgmem, hgid⟩ := hrefs m hm0
    refine ⟨g, List.mem_filter.mpr ⟨hgmem, ?_⟩, hgid⟩
    rw [hgid]
    exact hmne
  · exact List.Nodup.sublist ((List.filter_sublist _).map _) hgids
  · intro g2 hg2
    have hg2f : g2 ∈ db.groups.filter (fun g => g.id != gid) := hg2
    have hg2m : g2 ∈ db.groups := List.mem_of_mem_filter hg2f
    have hg2ne : g2.id ≠ gid := by simpa using (List.mem_filter.mp hg2f).2
    have hcnt : db.memberships.countP (byAdmin g2.id) = 1 := by
      rw [List.countP_eq_length_filter]
      exact hadmin g2 hg2m
    show ((db.memberships.filter (fun m => m.groupId != gid)).filter
      (byAdmin g2.id)).length = 1
    rw [← List.countP_eq_length_filter, List.countP_filter, ← hcnt]
    refine List.countP_congr (fun m _ => ?_)
    cases hb : byAdmin g2.id m
    · simp [hb]
    · have := ((byAdmin_eq_true_iff g2.id m).mp hb).1
      simp [hb, this, hg2ne]

/-- Deleting one non-admin membership row preserves the invariant. -/
theorem inv_delete_row (gid uid : Nat) (db : DB) (tm : Membership)
    (hInv : Inv db)
    (hfm : db.memberships.find? (byPair gid uid) = some tm)
    (hrole : tm.role ≠ "admin") :
    Inv (removeMembershipRow gid uid db) := by
  obtain ⟨⟨hno, hpos, hroles, hrefs, hgids⟩, hadmin⟩ := hInv
  have htm : tm ∈ db.memberships := List.mem_of_find?_eq_some hfm
  obtain ⟨htmg, htmu⟩ := (byPair_eq_true_iff gid uid tm).mp (List.find?_some hfm)
  refine ⟨⟨?_, ?_, ?_, ?_, ?_⟩, ?_⟩
  · exact List.Nodup.sublist ((List.filter_sublist _).map pairKey) hno
  · intro m hm
    exact hpos m (List.mem_of_mem_filter hm)
  · intro m hm
    exact hroles m (List.mem_of_mem_filter hm)
  · intro m hm
    exact hrefs m (List.mem_of_mem_filter hm)
  · exact hgids
  · intro g2 hg2
    have hg2' : g2 ∈ db.groups := hg2
    have hcnt : db.memberships.countP (byAdmin g2.id) = 1 := by
      rw [List.countP_eq_length_filter]
      exact hadmin g2 hg2'
    show ((db.memberships.filter (fun m => !(byPair gid uid m))).filter
      (byAdmin g2.id)).length = 1
    rw [← List.countP_eq_length_filter, List.countP_filter, ← hcnt]
    refine List.countP_congr (fun m hm => ?_)
    cases hp : byPair gid uid m
    · simp [hp]
    · have hmeq : m = tm := by
        obtain ⟨h1, h2⟩ := (byPair_eq_true_iff gid uid m).mp hp
        refine List.inj_on_of_nodup_map hno hm htm ?_
        simp [pairKey, h1, h2, htmg, htmu]
      have hbad : byAdmin g2.id m = false := by
        cases hb : byAdmin g2.id m
        · rfl
        · have := ((byAdmin_eq_true_iff g2.id m).mp hb).2
          rw [hmeq] at this
          exact absurd this hrole
      simp [hbad, hp]

/-- Joining a group preserves the invariant: the new row is a fresh
`role="member"` pair. -/
theorem inv_join (code : String) (uid now : Nat) (db s' : DB)
    (hInv : Inv db) (hu : 1 ≤ uid)
    (h : join_group code uid now db = .ok s') : Inv s' := by
  obtain ⟨⟨hno, hpos, hroles, hrefs, hgids⟩, hadmin⟩ := hInv
  simp only [join_group] at h
  split at h
  · exact Except.noConfusion h
  next g hgf =>
  split at h
  · exact Except.noConfusion h
  next hfm2 =>
  injection h with h
  subst h
  have hgmem : g ∈ db.groups := List.mem_of_find?_eq_some hgf
  refine ⟨⟨?_, ?_, ?_, ?_, ?_⟩, ?_⟩
  · show ((db.memberships ++ [(⟨g.id, uid, now, "member"⟩ : Membership)]).map
        pairKey).Nodup
    rw [List.map_append]
    rw [List.nodup_append]
    refine ⟨hno, List.nodup_singleton _, ?_⟩
    intro k hk hk2
    simp only [List.map_cons, List.map_nil, List.mem_singleton] at hk2
    obtain ⟨m, hm, rfl⟩ := List.mem_map.mp hk
    have := List.find?_eq_none.mp hfm2 m hm
    refine this ?_
    have hkk : m.groupId = g.id ∧ m.userId = uid := by
      have : pairKey m = (g.id, uid) := hk2
      exact ⟨congrArg Prod.fst this, congrArg Prod.snd this⟩
    exact (byPair_eq_true_iff g.id uid m).mpr hkk
  · intro m hm
    rcases List.mem_append.mp hm with hm1 | hm1
    · exact hpos m hm1
    · rw [List.mem_singleton.mp hm1]
      exact hu
  · intro m hm
    rcases List.mem_append.mp hm with hm1 | hm1
    · exact hroles m hm1
    · rw [List.mem_singleton.mp hm1]
      exact Or.inr rfl
  · intro m hm
    rcases List.mem_append.mp hm with hm1 | hm1
    · exact hrefs m hm1
    · rw [List.mem_singleton.mp hm1]
      exact ⟨g, hgmem, rfl⟩
  · exact hgids
  · intro g2 hg2
    have hg2' : g2 ∈ db.groups := hg2
    have hcnt : db.memberships.countP (byAdmin g2.id) = 1 := by
      rw [List.countP_eq_length_filter]
      exact hadmin g2 hg2'
    show ((db.memberships ++ [(⟨g.id, uid, now, "member"⟩ : Membership)]).filter
        (byAdmin g2.id)).length = 1
    rw [← List.countP_eq_length_filter, List.countP_append, hcnt]
    have : ([(⟨g.id, uid, now, "member"⟩ : Membership)].countP
        (byAdmin g2.id)) = 0 := by
      simp [byAdmin]
    omega

/-- Group creation (both commits) preserves the invariant: the new group
id is fresh, and its sole membership row is the creator's admin row. -/
theorem inv_create (uid : Nat) (name : String) (gen : Nat → String)
    (now : Nat) (db s1 s2 : DB) (hInv : Inv db) (hu : 1 ≤ uid)
    (h : create_group uid name gen now db = .ok (s1, s2)) : Inv s2 := by
  obtain ⟨⟨hno, hpos, hroles, hrefs, hgids⟩, hadmin⟩ := hInv
  simp only [create_group] at h
  split at h
  · exact Except.noConfusion h
  next code hpick =>
  injection h with h
  rw [Prod.mk.injEq] at h
  obtain ⟨h1, h2⟩ := h
  subst h2
  have hfresh : ∀ g ∈ db.groups, g.id < freshGroupId db := lt_freshGroupId db
  have hmsfresh : ∀ m ∈ db.memberships, m.groupId ≠ freshGroupId db := by
    intro m hm hcon
    obtain ⟨g, hgmem, hgid⟩ := hrefs m hm
    have := hfresh g hgmem
    omega
  refine ⟨⟨?_, ?_, ?_, ?_, ?_⟩, ?_⟩
  · show ((db.memberships ++
      [(⟨freshGroupId db, uid, now, "admin"⟩ : Membership)]).map pairKey).Nodup
    rw [List.map_append, List.nodup_append]
    refine ⟨hno, List.nodup_singleton _, ?_⟩
    intro k hk hk2
    simp only [List.map_cons, List.map_nil, List.mem_singleton] at hk2
    obtain ⟨m, hm, rfl⟩ := List.mem_map.mp hk
    exact hmsfresh m hm (congrArg Prod.fst hk2)
  · intro m hm
    rcases List.mem_append.mp hm with hm1 | hm1
    · exact hpos m hm1
    · rw [List.mem_singleton.mp hm1]
      exact hu
  · intro m hm
    rcases List.mem_append.mp hm with hm1 | hm1
    · exact hroles m hm1
    · rw [List.mem_singleton.mp hm1]
      exact Or.inl rfl
  · intro m hm
    rcases List.mem_append.mp hm with hm1 | hm1
    · obtain ⟨g, hgmem, hgid⟩ := hrefs m hm1
      exact ⟨g, List.mem_append_left _ hgmem, hgid⟩
    · rw [List.mem_singleton.mp hm1]
      refine ⟨_, List.mem_append_right _ (List.mem_singleton_self _), rfl⟩
  · show ((db.groups ++
      [(⟨freshGroupId db, name, code, now, some uid⟩ : Group)]).map
        (fun g => g.id)).Nodup
    rw [List.map_append, List.nodup_append]
    refine ⟨hgids, List.nodup_singleton _, ?_⟩
    intro k hk hk2
    simp only [List.map_cons, List.map_nil, List.mem_singleton] at hk2
    obtain ⟨g, hgmem, rfl⟩ := List.mem_map.mp hk
    have := hfresh g hgmem
    omega
  · intro g2 hg2
    have hg2' : g2 ∈ db.groups ++
      [(⟨freshGroupId db, name, code, now, some uid⟩ : Group)] := hg2
    show ((db.memberships ++
      [(⟨freshGroupId db, uid, now, "admin"⟩ : Membership)]).filter
        (byAdmin g2.id)).length = 1
    rw [← List.countP_eq_length_filter, List.countP_append]
    rcases List.mem_append.mp hg2' with hg2m | hg2m
    · have hcnt : db.memberships.countP (byAdmin g2.id) = 1 := by
        rw [List.countP_eq_length_filter]
        exact hadmin g2 hg2m
      have hne : freshGroupId db ≠ g2.id := by
        have := hfresh g2 hg2m
        omega
      have h0 : ([(⟨freshGroupId db, uid, now, "admin"⟩ : Membership)].countP
            (byAdmin g2.id)) = 0 := by
        simp [byAdmin, hne]
      omega
    · rw [List.mem_singleton.mp hg2m]
      show db.memberships.countP (byAdmin (freshGroupId db)) +
        ([(⟨freshGroupId db, uid, now, "admin"⟩ : Membership)].countP
          (byAdmin (freshGroupId db))) = 1
      have h0 : db.memberships.countP
          (byAdmin (freshGroupId db)) = 0 := by
        rw [List.countP_eq_zero]
        intro m hm hb
        exact hmsfresh m hm ((byAdmin_eq_true_iff _ m).mp hb).1
      have h1 : ([(⟨freshGroupId db, uid, now, "admin"⟩ : Membership)].countP
            (byAdmin (freshGroupId db))) = 1 := by
        simp [byAdmin]
      omega

/-- Leaving a group preserves the invariant, whichever branch the handler
takes: implicit group deletion, succession, or plain removal of a
non-admin member. -/
theorem inv_leave (gid uid : Nat) (db s' : DB) (hInv : Inv db)
    (h : leave_group gid uid db = .ok s') : Inv s' := by
  simp only [leave_group] at h
  split at h
  · exact Except.noConfusion h
  next g' hv =>
  split at h
  · next hc =>
    injection h with h
    subst h
    exact inv_cascade gid db hInv
  next hc =>
  injection h with h
  subst h
  have hv' := hv
  simp only [verify_group_membership] at hv'
  split at hv'
  · exact Except.noConfusion hv'
  next gg hgf =>
  split at hv'
  · exact Except.noConfusion hv'
  next mrow hfm =>
  have hggmem : gg ∈ db.groups := List.mem_of_find?_eq_some hgf
  have hggid : gg.id = gid := by simpa using List.find?_some hgf
  have hcount : get_member_count gid db ≠ 1 := by
    intro hcon
    exact hc (by simp [hcon])
  have hgr : getRole gid uid db = some mrow.role := by
    simp [getRole, hfm]
  by_cases hr : (getRole gid uid db == some "admin") = true
  · rw [if_pos hr]
    have hrole : mrow.role = "admin" := by
      rw [hgr] at hr
      simpa using hr
    exact inv_promote_delete gid uid db mrow hInv hfm hrole hcount
      ⟨gg, hggmem, hggid⟩
  · rw [if_neg hr]
    have hrole : mrow.role ≠ "admin" := by
      rw [hgr] at hr
      simpa using hr
    exact inv_delete_row gid uid db mrow hInv hfm hrole

/-- Admin-only member removal preserves the invariant in all of its
branches: removal of another (necessarily non-admin) member, and
self-removal with group deletion or succession. -/
theorem inv_remove (gid tgt uid : Nat) (db s' : DB) (hInv : Inv db)
    (h : remove_member gid tgt uid db = .ok s') : Inv s' := by
  simp only [remove_member] at h
  split at h
  · exact Except.noConfusion h
  next g' hv =>
  split at h
  · exact Except.noConfusion h
  next hradmin =>
  split at h
  · exact Except.noConfusion h
  next tm hfmt =>
  split at h
  · exact Except.noConfusion h
  next htz =>
  have hv' := hv
  simp only [verify_group_membership] at hv'
  split at hv'
  · exact Except.noConfusion hv'
  next gg hgf =>
  split at hv'
  · exact Except.noConfusion hv'
  next mu hfmu =>
  have hggmem : gg ∈ db.groups := List.mem_of_find?_eq_some hgf
  have hggid : gg.id = gid := by simpa using List.find?_some hgf
  have hmu_mem : mu ∈ db.memberships := List.mem_of_find?_eq_some hfmu
  obtain ⟨hmug, hmuu⟩ := (byPair_eq_true_iff gid uid mu).mp (List.find?_some hfmu)
  have hrole_mu : mu.role = "admin" := by
    have hgr : getRole gid uid db = some mu.role := by
      simp [getRole, hfmu]
    rw [hgr] at hradmin
    simpa using hradmin
  split at h
  · next hteq =>
    have hteq' : tgt = uid := by simpa using hteq
    subst hteq'
    have htmu2 : tm = mu := by
      rw [hfmt] at hfmu
      exact Option.some.inj hfmu
    split at h
    · next hc1 =>
      injection h with h
      subst h
      exact inv_cascade gid db hInv
    · next hc1 =>
      injection h with h
      subst h
      have hcount : get_member_count gid db ≠ 1 := by
        intro hcon
        exact hc1 (by simp [hcon])
      exact inv_promote_delete gid tgt db mu hInv hfmu hrole_mu hcount
        ⟨gg, hggmem, hggid⟩
  · next htne =>
    injection h with h
    subst h
    have htne' : tgt ≠ uid := by simpa using htne
    have htm : tm ∈ db.memberships := List.mem_of_find?_eq_some hfmt
    obtain ⟨htmg, htmu⟩ :=
      (byPair_eq_true_iff gid tgt tm).mp (List.find?_some hfmt)
    have htmne : tm ≠ mu := by
      intro hcon
      refine htne' ?_
      rw [← htmu, hcon, hmuu]
    have hrole_tm : tm.role ≠ "admin" := by
      intro hadm
      have h1 : tm ∈ db.memberships.filter (byAdmin gid) :=
        List.mem_filter.mpr ⟨htm, by simp [byAdmin, htmg, hadm]⟩
      have h2 : mu ∈ db.memberships.filter (byAdmin gid) :=
        List.mem_filter.mpr ⟨hmu_mem, by simp [byAdmin, hmug, hrole_mu]⟩
      have hge := two_mem_length_ge_two h1 h2 htmne
      have hadm1 := hInv.2 gg hggmem
      rw [hggid] at hadm1
      have : (adminRows gid db).length
          = (db.memberships.filter (byAdmin gid)).length := rfl
      omega
    exact inv_delete_row gid tgt db tm hInv hfmt hrole_tm

/-- The empty store satisfies the invariant. -/
theorem inv_empty : Inv DB.empty := by
  refine ⟨⟨?_, ?_, ?_, ?_, ?_⟩, ?_⟩ <;> simp [DB.empty]

/-- Every completed membership-changing operation preserves the
invariant. -/
theorem inv_step (s s' : DB) (hInv : Inv s) (hstep : StepOp s s') : Inv s' := by
  cases hstep with
  | create uid name gen now _ s1 _ hu heq =>
    exact inv_create uid name gen now s s1 s' hInv hu heq
  | join code uid now _ _ hu heq =>
    exact inv_join code uid now s s' hInv hu heq
  | leave gid uid _ _ heq =>
    exact inv_leave gid uid s s' hInv heq
  | remove gid tgt uid _ _ heq =>
    exact inv_remove gid tgt uid s s' hInv heq

/-- Every state reachable through completed operations satisfies the
invariant. -/
theorem inv_reachable (db : DB) (h : ReachableOp db) : Inv db := by
  induction h with
  | init => exact inv_empty
  | step hr hs ih => exact inv_step _ _ ih hs

/-- C1 (amended).  At operation granularity — after every completed
create/join/leave/remove — every non-empty group holds exactly one
`role="admin"` membership row.  (As stated over all committed
transactions the claim fails, because group creation commits twice; see
the counterexample.) -/
theorem c1_admin_uniqueness_invariant (db : DB) (h : ReachableOp db) :
    AdminUnique db := by
  intro g hg _
  exact (inv_reachable db h).2 g hg

/-- Witness for the amended C1: the state reached by one completed group
creation satisfies admin uniqueness. -/
theorem c1_witness :
    AdminUnique ⟨[⟨1, "Home", "HC", 0, some 1⟩], [⟨1, 1, 0, "admin"⟩],
      [], [], []⟩ :=
  c1_admin_uniqueness_invariant _
    (ReachableOp.step ReachableOp.init
      (StepOp.create 1 "Home" (fun _ => "HC") 0 DB.empty
        ⟨[⟨1, "Home", "HC", 0, some 1⟩], [], [], [], []⟩
        ⟨[⟨1, "Home", "HC", 0, some 1⟩], [⟨1, 1, 0, "admin"⟩], [], [], []⟩
        (by decide) rfl))

/-- C1 counterexample at commit granularity: after `create_group`'s first
commit (group row persisted, no membership row yet) a join through the
invite code commits a `role="member"` row, yielding a reachable committed
state whose group has one member and zero admins — the claim's "no
reachable committed state has zero admins in a non-empty group" is
false. -/
theorem c1_counterexample_committed_state_without_admin :
    ReachableC ⟨[⟨1, "Home", "JC", 0, some 1⟩], [⟨1, 2, 5, "member"⟩],
      [], [], []⟩ ∧
    ¬ AdminUnique ⟨[⟨1, "Home", "JC", 0, some 1⟩], [⟨1, 2, 5, "member"⟩],
      [], [], []⟩ := by
  constructor
  · have h1 : StepC DB.empty
        ⟨[⟨1, "Home", "JC", 0, some 1⟩], [], [], [], []⟩ :=
      StepC.createMid 1 "Home" (fun _ => "JC") 0 DB.empty
        ⟨[⟨1, "Home", "JC", 0, some 1⟩], [], [], [], []⟩
        ⟨[⟨1, "Home", "JC", 0, some 1⟩], [⟨1, 1, 0, "admin"⟩], [], [], []⟩
        (by decide) rfl
    have h2 : StepC ⟨[⟨1, "Home", "JC", 0, some 1⟩], [], [], [], []⟩
        ⟨[⟨1, "Home", "JC", 0, some 1⟩], [⟨1, 2, 5, "member"⟩], [], [], []⟩ :=
      StepC.join "JC" 2 5
        ⟨[⟨1, "Home", "JC", 0, some 1⟩], [], [], [], []⟩
        ⟨[⟨1, "Home", "JC", 0, some 1⟩], [⟨1, 2, 5, "member"⟩], [], [], []⟩
        (by decide) rfl
    exact ReachableC.step (ReachableC.step ReachableC.init h1) h2
  · decide

end Cracken
